import Mathlib

/-!
# Verification of the CIDARTHA byte-indexed CIDR trie

Shallow embedding of the CIDARTHA prefix-matching engine
(`CIDARTHA4.py` and, where it differs, `CIDARTHA5.py`): the trie node,
the membership test, CIDR insertion (including partial-byte expansion),
removal with pruning, the compact serialization, the address normalizer
and the lookup-cache lifecycle.  Python byte values are `Nat` (< 256),
byte strings are `List Nat`, dicts are association lists.
-/

namespace CIDARTHA

/-! ## Association lists: the model of Python `dict` -/

/-- Lookup in an association list, mirroring Python `dict.get`. -/
def alGet {κ α : Type} [DecidableEq κ] : List (κ × α) → κ → Option α
  | [], _ => none
  | (k, v) :: rest, k' => if k = k' then some v else alGet rest k'

/-- Store a binding, mirroring Python `dict[k] = v`: replace in place if the
key is present, otherwise append. -/
def alSet {κ α : Type} [DecidableEq κ] : List (κ × α) → κ → α → List (κ × α)
  | [], k', v' => [(k', v')]
  | (k, v) :: rest, k', v' =>
      if k = k' then (k, v') :: rest else (k, v) :: alSet rest k' v'

/-- Delete a binding, mirroring Python `del dict[k]`. -/
def alDel {κ α : Type} [DecidableEq κ] : List (κ × α) → κ → List (κ × α)
  | [], _ => []
  | (k, v) :: rest, k' => if k = k' then rest else (k, v) :: alDel rest k'

@[simp] theorem alGet_nil {κ α : Type} [DecidableEq κ] (k : κ) :
    alGet ([] : List (κ × α)) k = none := rfl

@[simp] theorem alGet_cons {κ α : Type} [DecidableEq κ] (k k' : κ) (v : α)
    (rest : List (κ × α)) :
    alGet ((k, v) :: rest) k' = if k = k' then some v else alGet rest k' := rfl

theorem alGet_alSet {κ α : Type} [DecidableEq κ] (l : List (κ × α)) (k k' : κ) (v : α) :
    alGet (alSet l k v) k' = if k = k' then some v else alGet l k' := by
  induction l with
  | nil => simp [alSet]
  | cons hd tl ih =>
    obtain ⟨hk, hv⟩ := hd
    by_cases h1 : hk = k
    · subst h1
      by_cases h2 : hk = k' <;> simp [alSet, h2]
    · by_cases h2 : hk = k'
      · subst h2
        have : ¬ k = hk := fun h => h1 h.symm
        simp [alSet, h1, this]
      · simp [alSet, h1, h2, ih]

theorem alSet_nonempty {κ α : Type} [DecidableEq κ] (l : List (κ × α)) (k : κ) (v : α) :
    alSet l k v ≠ [] := by
  cases l with
  | nil => simp [alSet]
  | cons hd tl =>
    obtain ⟨hk, hv⟩ := hd
    by_cases h : hk = k <;> simp [alSet, h]

/-- Replacing a stored binding by the value it already holds is the identity. -/
theorem alSet_self {κ α : Type} [DecidableEq κ] (l : List (κ × α)) (k : κ) (v : α)
    (h : alGet l k = some v) : alSet l k v = l := by
  induction l with
  | nil => simp at h
  | cons hd tl ih =>
    obtain ⟨hk, hv⟩ := hd
    by_cases h1 : hk = k
    · subst h1
      simp [alGet] at h
      simp [alSet, h]
    · simp [alGet, h1] at h
      simp [alSet, h1, ih h]

theorem alSet_alSet {κ α : Type} [DecidableEq κ] (l : List (κ × α)) (k : κ) (v w : α) :
    alSet (alSet l k v) k w = alSet l k w := by
  induction l with
  | nil => simp [alSet]
  | cons hd tl ih =>
    obtain ⟨hk, hv⟩ := hd
    by_cases h1 : hk = k <;> simp [alSet, h1, ih]

/-- Keys of an association list. -/
def alKeys {κ α : Type} (l : List (κ × α)) : List κ := l.map Prod.fst

theorem alGet_eq_none_of_not_mem_keys {κ α : Type} [DecidableEq κ]
    (l : List (κ × α)) (k : κ) (h : k ∉ alKeys l) : alGet l k = none := by
  induction l with
  | nil => rfl
  | cons hd tl ih =>
    obtain ⟨hk, hv⟩ := hd
    have h1 : hk ≠ k := by
      intro heq; exact h (by simp [alKeys, heq])
    have h2 : k ∉ alKeys tl := by
      intro hmem; exact h (by simp [alKeys] at hmem ⊢; right; exact hmem)
    simp [alGet, h1, ih h2]

theorem alGet_alDel {κ α : Type} [DecidableEq κ] (l : List (κ × α)) (k k' : κ)
    (hnd : (alKeys l).Nodup) :
    alGet (alDel l k) k' = if k = k' then none else alGet l k' := by
  induction l with
  | nil => simp [alDel]
  | cons hd tl ih =>
    obtain ⟨hk, hv⟩ := hd
    simp [alKeys] at hnd
    by_cases h1 : hk = k
    · subst h1
      by_cases h2 : hk = k'
      · subst h2
        simp [alDel]
        exact alGet_eq_none_of_not_mem_keys tl hk (by simpa [alKeys] using hnd.1)
      · simp [alDel, h2]
    · by_cases h2 : hk = k'
      · subst h2
        have hne : ¬ k = hk := fun h => h1 h.symm
        simp [alDel, h1, hne]
      · simp [alDel, h1, h2, ih hnd.2]

theorem alKeys_alSet {κ α : Type} [DecidableEq κ] (l : List (κ × α)) (k : κ) (v : α) :
    alKeys (alSet l k v) = if k ∈ alKeys l then alKeys l else alKeys l ++ [k] := by
  induction l with
  | nil => simp [alSet, alKeys]
  | cons hd tl ih =>
    obtain ⟨hk, hv⟩ := hd
    by_cases h1 : hk = k
    · subst h1
      simp [alSet, alKeys]
    · have hne : ¬ k = hk := fun h => h1 h.symm
      simp [alSet, alKeys, h1, hne] at ih ⊢
      rw [ih]
      by_cases h2 : k ∈ List.map Prod.fst tl <;> simp [h2, hne]

theorem alKeys_alSet_nodup {κ α : Type} [DecidableEq κ] (l : List (κ × α)) (k : κ) (v : α)
    (hnd : (alKeys l).Nodup) : (alKeys (alSet l k v)).Nodup := by
  rw [alKeys_alSet]
  by_cases h : k ∈ alKeys l
  · simpa [h]
  · simp only [h, if_false]
    rw [List.nodup_append]
    refine ⟨hnd, List.nodup_singleton k, ?_⟩
    intro x hx hx'
    simp at hx'
    subst hx'
    exact h hx

theorem alKeys_alDel_sublist {κ α : Type} [DecidableEq κ] (l : List (κ × α)) (k : κ) :
    (alKeys (alDel l k)).Sublist (alKeys l) := by
  induction l with
  | nil => simp [alDel]
  | cons hd tl ih =>
    obtain ⟨hk, hv⟩ := hd
    by_cases h1 : hk = k
    · simp [alDel, h1, alKeys]
    · simpa [alDel, h1, alKeys] using ih

theorem alKeys_alDel_nodup {κ α : Type} [DecidableEq κ] (l : List (κ × α)) (k : κ)
    (hnd : (alKeys l).Nodup) : (alKeys (alDel l k)).Nodup :=
  (alKeys_alDel_sublist l k).nodup hnd

/-! ## The trie node (`CIDARTHANode`)

`is_end` is the terminal flag, `range_start`/`range_end` hold the network and
broadcast bytes of the prefix that marked the node terminal, and `children`
is the lazily allocated child dict (`None` in Python when absent). -/

inductive Node : Type where
  | mk (is_end : Bool) (range_start : Option (List Nat)) (range_end : Option (List Nat))
      (children : Option (List (Nat × Node))) : Node

/-- Terminal flag of a node. -/
def Node.is_end : Node → Bool
  | .mk e _ _ _ => e

/-- `range_start` metadata of a node. -/
def Node.range_start : Node → Option (List Nat)
  | .mk _ s _ _ => s

/-- `range_end` metadata of a node. -/
def Node.range_end : Node → Option (List Nat)
  | .mk _ _ e _ => e

/-- Child dict of a node (`None` when never allocated). -/
def Node.children : Node → Option (List (Nat × Node))
  | .mk _ _ _ c => c

@[simp] theorem Node.is_end_mk (e : Bool) (s t : Option (List Nat))
    (c : Option (List (Nat × Node))) : (Node.mk e s t c).is_end = e := rfl

@[simp] theorem Node.range_start_mk (e : Bool) (s t : Option (List Nat))
    (c : Option (List (Nat × Node))) : (Node.mk e s t c).range_start = s := rfl

@[simp] theorem Node.range_end_mk (e : Bool) (s t : Option (List Nat))
    (c : Option (List (Nat × Node))) : (Node.mk e s t c).range_end = t := rfl

@[simp] theorem Node.children_mk (e : Bool) (s t : Option (List Nat))
    (c : Option (List (Nat × Node))) : (Node.mk e s t c).children = c := rfl

theorem Node.eta (n : Node) :
    n = Node.mk n.is_end n.range_start n.range_end n.children := by
  cases n; rfl

/-- A freshly constructed `CIDARTHANode()`. -/
def emptyNode : Node := .mk false none none none

/-- `node.get(b)` through the `_children` dict: `None` when the dict is absent
or the key missing. -/
def childGet (n : Node) (b : Nat) : Option Node :=
  match n.children with
  | none => none
  | some cs => alGet cs b

/-- `node[b] = v`: store a child, allocating the dict on first use. -/
def childSet (n : Node) (b : Nat) (v : Node) : Node :=
  match n.children with
  | none => .mk n.is_end n.range_start n.range_end (some [(b, v)])
  | some cs => .mk n.is_end n.range_start n.range_end (some (alSet cs b v))

/-- `del node[b]`, collapsing an emptied dict back to `None`
(mirrors `CIDARTHANode.__delitem__` / `_prune_empty_nodes`). -/
def childDel (n : Node) (b : Nat) : Node :=
  match n.children with
  | none => n
  | some cs =>
      let cs' := alDel cs b
      .mk n.is_end n.range_start n.range_end (if cs'.isEmpty then none else some cs')

/-- Python's `not node._children`: true for an absent or empty dict. -/
def Node.childless (n : Node) : Bool :=
  match n.children with
  | none => true
  | some cs => cs.isEmpty

@[simp] theorem childGet_mk_none (e : Bool) (s t : Option (List Nat)) (b : Nat) :
    childGet (.mk e s t none) b = none := rfl

@[simp] theorem childGet_mk_some (e : Bool) (s t : Option (List Nat))
    (cs : List (Nat × Node)) (b : Nat) :
    childGet (.mk e s t (some cs)) b = alGet cs b := rfl

theorem is_end_childSet (n : Node) (b : Nat) (v : Node) :
    (childSet n b v).is_end = n.is_end := by
  unfold childSet
  cases h : n.children <;> simp

theorem childGet_childSet (n : Node) (b b' : Nat) (v : Node) :
    childGet (childSet n b v) b' = if b = b' then some v else childGet n b' := by
  unfold childSet childGet
  cases h : n.children with
  | none => by_cases hb : b = b' <;> simp [hb]
  | some cs => simp [alGet_alSet]

/-! ## Bit masks and the membership test -/

/-- `MASKS = [(0xFF << (8 - i)) & 0xFF for i in range(1, 9)]`. -/
def MASKS : List Nat := (List.range 8).map (fun i => (0xFF <<< (8 - (i + 1))) % 256)

example : MASKS = [128, 192, 224, 240, 248, 252, 254, 255] := by decide

/-- The byte-walk of `_check_impl` / `_check_bytes_impl`: descend one child per
byte, returning true as soon as a terminal child is entered. -/
def checkWalk (n : Node) (bytes : List Nat) : Bool :=
  match bytes with
  | [] => false
  | b :: rest =>
    match n.children with
    | none => false
    | some cs =>
      match alGet cs b with
      | none => false
      | some child => if child.is_end then true else checkWalk child rest

/-- `CIDARTHA._check_bytes_impl` (identical to the core of
`CIDARTHA4._check_impl` after normalization): root wildcard short-circuit,
then the byte walk. -/
def checkBytes (root : Node) (bytes : List Nat) : Bool :=
  if root.is_end then true else checkWalk root bytes

theorem checkWalk_emptyNode (bytes : List Nat) : checkWalk emptyNode bytes = false := by
  cases bytes <;> rfl

@[simp] theorem checkBytes_emptyNode (bytes : List Nat) :
    checkBytes emptyNode bytes = false := by
  cases bytes <;> rfl

/-! ## CIDR insertion (`CIDARTHA._insert_cidr`) -/

/-- `CIDARTHA._mark_as_end_node`: set the terminal flag and record the
network / broadcast metadata, keeping the children. -/
def markAsEndNode (n : Node) (net bcast : List Nat) : Node :=
  .mk true (some net) (some bcast) n.children

/-- The partial-byte expansion loop of `CIDARTHA4._insert_cidr`: for every
`offset` in `range(numValues)` ensure a child exists at byte `base ||| offset`
and mark it terminal. -/
def expandMark (n : Node) (base numValues : Nat) (net bcast : List Nat) : Node :=
  (List.range numValues).foldl
    (fun m offset =>
      let b := base ||| offset
      childSet m b (markAsEndNode ((childGet m b).getD emptyNode) net bcast))
    n

/-- The full-byte descent of `_insert_cidr`: walk `path`, creating missing
children, and apply the final action `fin` to the node reached. -/
def insertWalk (n : Node) (path : List Nat) (fin : Node → Node) : Node :=
  match path with
  | [] => fin n
  | b :: rest =>
      childSet n b (insertWalk ((childGet n b).getD emptyNode) rest fin)

/-- `CIDARTHA4._insert_cidr network` for a parsed prefix
`(net, prefixLen, bcast)`: `/0` marks the root terminal
(`_set_root_as_wildcard`); otherwise descend `prefixLen >>> 3` full bytes and
either mark the node terminal (`rem_bits == 0`) or expand the partial byte
across all `2^(8 - rem_bits)` matching child byte values. -/
def insertCidr (root : Node) (net : List Nat) (prefixLen : Nat) (bcast : List Nat) : Node :=
  if prefixLen = 0 then
    .mk true (some net) (some bcast) root.children
  else
    let fullBytes := prefixLen >>> 3
    let remBits := prefixLen &&& 7
    if remBits = 0 then
      insertWalk root (net.take fullBytes) (fun n => markAsEndNode n net bcast)
    else
      let baseByte := (net.getD fullBytes 0) &&& MASKS.getD (remBits - 1) 0
      let numValues := 1 <<< (8 - remBits)
      insertWalk root (net.take fullBytes)
        (fun n => expandMark n baseByte numValues net bcast)

/-- `CIDARTHA5._insert_cidr`: identical full-byte descent, but a prefix with
`rem_bits ≠ 0` descends into the single child at the masked base byte and
marks only that child terminal — no expansion across the
`2^(8 - rem_bits)` byte values. -/
def insertCidr5 (root : Node) (net : List Nat) (prefixLen : Nat) (bcast : List Nat) : Node :=
  if prefixLen = 0 then
    .mk true (some net) (some bcast) root.children
  else
    let fullBytes := prefixLen >>> 3
    let remBits := prefixLen &&& 7
    let path :=
      if remBits = 0 then net.take fullBytes
      else net.take fullBytes ++ [(net.getD fullBytes 0) &&& MASKS.getD (remBits - 1) 0]
    insertWalk root path (fun n => markAsEndNode n net bcast)

/-! ## The parser contract: prefixes, network / broadcast bytes -/

/-- A parsed CIDR prefix as delivered by the external parser
(`ip_network(..., strict=False)`): packed network bytes and prefix length. -/
structure Pfx : Type where
  net : List Nat
  plen : Nat
deriving DecidableEq

/-- Mask a byte string down to its first `plen` bits (host bits cleared):
byte `i` keeps its top `min 8 (plen - 8*i)` bits. -/
def maskBytes : List Nat → Nat → List Nat
  | [], _ => []
  | b :: rest, plen => (b &&& (256 - 2 ^ (8 - min 8 plen))) :: maskBytes rest (plen - 8)

/-- Broadcast bytes of a prefix: host bits set.  This is the
`broadcast_address.packed` value of the parser contract. -/
def broadcastBytes : List Nat → Nat → List Nat
  | [], _ => []
  | b :: rest, plen => (b ||| (2 ^ (8 - min 8 plen) - 1)) :: broadcastBytes rest (plen - 8)

/-- The parser contract for a successfully parsed prefix: bytes are in range,
the prefix length fits the address width, and host bits are zeroed. -/
def ValidPfx (p : Pfx) : Prop :=
  (∀ b ∈ p.net, b < 256) ∧ p.plen ≤ 8 * p.net.length ∧ maskBytes p.net p.plen = p.net

instance (p : Pfx) : Decidable (ValidPfx p) := by
  unfold ValidPfx; infer_instance

/-- Lexicographic order on equal-length byte strings (numeric big-endian
order); `false` on length mismatch. -/
def listLe : List Nat → List Nat → Bool
  | [], [] => true
  | x :: xs, y :: ys =>
      if x < y then true else if x = y then listLe xs ys else false
  | _, _ => false

/-- `p` covers address bytes `a`: `a` lies between the prefix's network and
broadcast addresses. -/
def covers (p : Pfx) (a : List Nat) : Bool :=
  listLe p.net a && listLe a (broadcastBytes p.net p.plen)

/-- Fold a list of parsed prefixes into a trie via `_insert_cidr`, starting
from a fresh engine. -/
def insertAll (ps : List Pfx) : Node :=
  ps.foldl (fun t p => insertCidr t p.net p.plen (broadcastBytes p.net p.plen)) emptyNode

/-! ## Removal (`CIDARTHA.remove` with `_traverse_path` and
`_prune_empty_nodes`) -/

/-- `CIDARTHA._remove_end_node`: clear the terminal flag and metadata. -/
def removeEndNode (n : Node) : Node :=
  .mk false none none n.children

/-- The recursive rendering of `remove`'s traverse-unmark-prune:
descend along `path`; a missing child anywhere aborts (the prefix is absent);
at the final edge unmark the child; on the way back prune every just-visited
child that is non-terminal and childless (Python walks the recorded path in
reverse, deleting such nodes and stopping at the first that remains). -/
def removeWalk (n : Node) (path : List Nat) : Node :=
  match path with
  | [] => n
  | [b] =>
      match childGet n b with
      | none => n
      | some c =>
          let c' := removeEndNode c
          if c'.childless then childDel n b else childSet n b c'
  | b :: rest =>
      match childGet n b with
      | none => n
      | some c =>
          let c' := removeWalk c rest
          if c'.is_end = false ∧ c'.childless then childDel n b else childSet n b c'

/-- `CIDARTHA.remove` for a successfully parsed prefix: `/0` replaces the
root with a fresh node; otherwise unmark the node at the end of the traversal
path (full bytes, plus the masked partial byte when `rem_bits ≠ 0`) and prune
the path.  The sibling terminals of a partial-byte expansion are not
touched. -/
def removeCidr (root : Node) (net : List Nat) (prefixLen : Nat) : Node :=
  if prefixLen = 0 then emptyNode
  else
    let fullBytes := prefixLen >>> 3
    let remBits := prefixLen &&& 7
    let path :=
      if remBits = 0 then net.take fullBytes
      else net.take fullBytes ++ [(net.getD fullBytes 0) &&& MASKS.getD (remBits - 1) 0]
    removeWalk root path

/-! ## Byte arithmetic: masks as division, `|||` as addition -/

set_option maxRecDepth 8000 in
set_option maxHeartbeats 1600000 in
theorem land_mask_eq_div_mul (x j : Nat) (hx : x < 256) (hj : j ≤ 8) :
    x &&& (256 - 2 ^ j) = x / 2 ^ j * 2 ^ j := by
  have h : ∀ x < 256, ∀ j < 9, x &&& (256 - 2 ^ j) = x / 2 ^ j * 2 ^ j := by decide
  exact h x hx j (by omega)

theorem mul_pow_lor_eq_add (j : Nat) : ∀ q o : Nat, o < 2 ^ j →
    (q * 2 ^ j) ||| o = q * 2 ^ j + o := by
  induction j with
  | zero =>
    intro q o ho
    have ho0 : o = 0 := by omega
    subst ho0
    simp
  | succ j ih =>
    intro q o ho
    have hb : Nat.bit (decide (o % 2 = 1)) (o >>> 1) = o :=
      Nat.bit_decide_mod_two_eq_one_shiftRight_one o
    have hq : q * 2 ^ (j + 1) = Nat.bit false (q * 2 ^ j) := by
      simp only [Nat.bit, Bool.cond_false, Nat.pow_succ]
      ring
    have hosucc : o < 2 ^ j * 2 := by rw [← Nat.pow_succ]; exact ho
    have ho2 : o >>> 1 < 2 ^ j := by
      rw [Nat.shiftRight_one]
      exact (Nat.div_lt_iff_lt_mul (by omega)).mpr hosucc
    have htoNat : (decide (o % 2 = 1)).toNat = o % 2 := by
      rcases Nat.mod_two_eq_zero_or_one o with h2 | h2 <;> simp [h2]
    calc (q * 2 ^ (j + 1)) ||| o
        = Nat.bit false (q * 2 ^ j) ||| Nat.bit (decide (o % 2 = 1)) (o >>> 1) := by
          rw [← hq, hb]
      _ = Nat.bit (false || decide (o % 2 = 1)) ((q * 2 ^ j) ||| (o >>> 1)) :=
          Nat.lor_bit false (q * 2 ^ j) (decide (o % 2 = 1)) (o >>> 1)
      _ = Nat.bit (decide (o % 2 = 1)) (q * 2 ^ j + o >>> 1) := by
          rw [Bool.false_or, ih (q) (o >>> 1) ho2]
      _ = q * 2 ^ (j + 1) + o := by
          rw [Nat.bit_val, htoNat, Nat.shiftRight_one, Nat.pow_succ, ← Nat.mul_assoc]
          generalize q * 2 ^ j = G
          omega

theorem lor_low_eq_add (x j o : Nat) (_hx : x < 256) (_hj : j ≤ 8) (ho : o < 2 ^ j) :
    (x / 2 ^ j * 2 ^ j) ||| o = x / 2 ^ j * 2 ^ j + o :=
  mul_pow_lor_eq_add j (x / 2 ^ j) o ho

/-- A byte with its low `j` bits cleared, `|||`-ed with a value below `2^j`,
is their sum. -/
theorem lor_of_masked (x j o : Nat) (hx : x < 256) (hj : j ≤ 8) (ho : o < 2 ^ j)
    (hz : x &&& (256 - 2 ^ j) = x) : x ||| o = x + o := by
  have hdiv := land_mask_eq_div_mul x j hx hj
  rw [hz] at hdiv
  calc x ||| o = (x / 2 ^ j * 2 ^ j) ||| o := by rw [← hdiv]
    _ = x / 2 ^ j * 2 ^ j + o := lor_low_eq_add x j o hx hj ho
    _ = x + o := by rw [← hdiv]

/-- The partial-byte condition: for a byte `net0` whose low `j` host bits are
clear, a byte `a0` agrees with it on the top `8 - j` bits iff `a0` lies in
`[net0, net0 + 2^j - 1]`. -/
theorem partial_byte_iff (net0 a0 j : Nat) (hn : net0 < 256) (ha : a0 < 256)
    (hj : j ≤ 8) (hz : net0 &&& (256 - 2 ^ j) = net0) :
    (net0 ≤ a0 ∧ a0 ≤ net0 + (2 ^ j - 1)) ↔ a0 &&& (256 - 2 ^ j) = net0 := by
  have hpos : 0 < 2 ^ j := Nat.pos_pow_of_pos j (by omega)
  have hq : net0 / 2 ^ j * 2 ^ j = net0 := by
    rw [← land_mask_eq_div_mul net0 j hn hj, hz]
  have hA := land_mask_eq_div_mul a0 j ha hj
  constructor
  · rintro ⟨h1, h2⟩
    have hdiv : a0 / 2 ^ j = net0 / 2 ^ j := by
      refine Nat.div_eq_of_lt_le ?_ ?_
      · rw [hq]; exact h1
      · have hexp : (net0 / 2 ^ j + 1) * 2 ^ j = net0 / 2 ^ j * 2 ^ j + 2 ^ j := by ring
        rw [hexp, hq]
        have hP : 0 < 2 ^ j := hpos
        generalize 2 ^ j = P at h2 hP
        omega
    rw [hA, hdiv, hq]
  · intro h
    rw [hA] at h
    have hle : net0 ≤ a0 := by
      rw [← h]; exact Nat.div_mul_le_self a0 _
    refine ⟨hle, ?_⟩
    have hmod : a0 % 2 ^ j < 2 ^ j := Nat.mod_lt a0 hpos
    have hdm : a0 / 2 ^ j * 2 ^ j + a0 % 2 ^ j = a0 := by
      rw [Nat.mul_comm]; exact Nat.div_add_mod a0 _
    rw [h] at hdm
    have hP : 0 < 2 ^ j := hpos
    generalize 2 ^ j = P at hmod hdm hP
    omega

theorem land_255_eq (x : Nat) (hx : x < 256) : x &&& 255 = x := by
  have := land_mask_eq_div_mul x 0 hx (by omega)
  simpa using this

theorem shiftRight3_eq (n : Nat) : n >>> 3 = n / 8 := by
  rw [Nat.shiftRight_eq_div_pow]

theorem land7_eq (n : Nat) : n &&& 7 = n % 8 := by
  have := Nat.and_pow_two_sub_one_eq_mod n 3
  simpa using this

theorem masks_getD_eq (r : Nat) (h1 : 1 ≤ r) (h2 : r ≤ 7) :
    MASKS.getD (r - 1) 0 = 256 - 2 ^ (8 - r) := by
  interval_cases r <;> decide

theorem one_shiftLeft_eq (k : Nat) : 1 <<< k = 2 ^ k := by
  rw [Nat.shiftLeft_eq, one_mul]

/-! ## How `insertWalk` changes the membership walk -/

theorem checkWalk_cons (n : Node) (h : Nat) (t : List Nat) :
    checkWalk n (h :: t) =
      (childGet n h).elim false (fun c => c.is_end || checkWalk c t) := by
  cases n with
  | mk e s r ch =>
    cases ch with
    | none => rfl
    | some cs =>
      cases hg : alGet cs h with
      | none => simp [checkWalk, childGet, hg]
      | some c =>
        simp only [checkWalk, childGet, Node.children_mk, hg, Option.elim_some]
        cases c.is_end <;> simp

@[simp] theorem is_end_emptyNode : emptyNode.is_end = false := rfl

@[simp] theorem children_emptyNode : emptyNode.children = none := rfl

theorem checkWalk_markAsEndNode (n : Node) (net bc : List Nat) (t : List Nat) :
    checkWalk (markAsEndNode n net bc) t = checkWalk n t := by
  cases t with
  | nil => rfl
  | cons h t' =>
    rw [checkWalk_cons, checkWalk_cons]
    have : childGet (markAsEndNode n net bc) h = childGet n h := by
      unfold markAsEndNode childGet
      simp
    rw [this]

theorem is_end_markAsEndNode (n : Node) (net bc : List Nat) :
    (markAsEndNode n net bc).is_end = true := rfl

/-- `expandMark` on a running fold: the terminal flag of the node itself is
never touched. -/
theorem is_end_expandMark (n : Node) (base cnt : Nat) (net bc : List Nat) :
    (expandMark n base cnt net bc).is_end = n.is_end := by
  unfold expandMark
  generalize List.range cnt = l
  induction l generalizing n with
  | nil => rfl
  | cons o l ih =>
    rw [List.foldl_cons, ih, is_end_childSet]

theorem expandMark_childGet_mem (n : Node) (base cnt : Nat) (net bc : List Nat)
    (h : Nat) (hmem : ∃ o, o < cnt ∧ h = base ||| o) :
    ∃ c, childGet (expandMark n base cnt net bc) h = some c ∧ c.is_end = true := by
  unfold expandMark
  induction cnt generalizing n with
  | zero => obtain ⟨o, ho, _⟩ := hmem; omega
  | succ k ih =>
    rw [List.range_succ, List.foldl_append, List.foldl_cons, List.foldl_nil]
    obtain ⟨o, ho, heq⟩ := hmem
    by_cases hk : h = base ||| k
    · refine ⟨?_, ?_, ?_⟩
      case _ => exact markAsEndNode ((childGet ((List.range k).foldl
        (fun m offset =>
          childSet m (base ||| offset)
            (markAsEndNode ((childGet m (base ||| offset)).getD emptyNode) net bc)) n)
        (base ||| k)).getD emptyNode) net bc
      case _ => rw [childGet_childSet, if_pos hk.symm]
      case _ => exact is_end_markAsEndNode _ _ _
    · have ho' : o < k := by
        rcases Nat.lt_succ_iff_lt_or_eq.mp ho with h' | h'
        · exact h'
        · exact absurd (h' ▸ heq) hk
      obtain ⟨c, hc, hce⟩ := ih n ⟨o, ho', heq⟩
      exact ⟨c, by rw [childGet_childSet, if_neg (fun he => hk he.symm)]; exact hc, hce⟩

theorem expandMark_childGet_not_mem (n : Node) (base cnt : Nat) (net bc : List Nat)
    (h : Nat) (hmem : ∀ o, o < cnt → h ≠ base ||| o) :
    childGet (expandMark n base cnt net bc) h = childGet n h := by
  unfold expandMark
  induction cnt generalizing n with
  | zero => rfl
  | succ k ih =>
    rw [List.range_succ, List.foldl_append, List.foldl_cons, List.foldl_nil]
    rw [childGet_childSet, if_neg (fun he => (hmem k (Nat.lt_succ_self k)) he.symm)]
    exact ih n (fun o ho => hmem o (Nat.lt_succ_of_lt ho))

/-- The "new hit" contributed by a partial-byte expansion: the first remaining
byte falls in the expanded range. -/
def rangeHitB (base cnt : Nat) : List Nat → Bool
  | [] => false
  | h :: _ => decide (∃ o, o < cnt ∧ h = base ||| o)

theorem checkWalk_expandMark (n : Node) (base cnt : Nat) (net bc : List Nat)
    (t : List Nat) :
    checkWalk (expandMark n base cnt net bc) t = (rangeHitB base cnt t || checkWalk n t) := by
  cases t with
  | nil => simp [checkWalk, rangeHitB]
  | cons h t' =>
    rw [checkWalk_cons, checkWalk_cons]
    by_cases hmem : ∃ o, o < cnt ∧ h = base ||| o
    · obtain ⟨c, hc, hce⟩ := expandMark_childGet_mem n base cnt net bc h hmem
      rw [hc]
      simp [rangeHitB, hmem, hce]
    · rw [expandMark_childGet_not_mem n base cnt net bc h
        (by intro o ho he; exact hmem ⟨o, ho, he⟩)]
      simp [rangeHitB, hmem]

theorem is_end_insertWalk (n : Node) (path : List Nat) (fin : Node → Node) :
    (insertWalk n path fin).is_end =
      (if path.isEmpty then (fin n).is_end else n.is_end) := by
  cases path with
  | nil => simp [insertWalk]
  | cons b rest => simp [insertWalk, is_end_childSet]

/-- The address positions at which a walked insert introduces a *new* true
answer: descend `path`; at its end, `finEnd` says the final node itself was
marked terminal and `finHit` describes hits inside the final action. -/
def pathHit (finHit : List Nat → Bool) (finEnd : Bool) : List Nat → List Nat → Bool
  | [], t => finHit t
  | _ :: _, [] => false
  | b :: path', h :: t =>
      decide (h = b) && ((path'.isEmpty && finEnd) || pathHit finHit finEnd path' t)

/-- Master lemma: membership after `insertWalk` is membership before, plus
exactly the hits introduced along the walk. -/
theorem checkWalk_insertWalk (fin : Node → Node) (finHit : List Nat → Bool) (finEnd : Bool)
    (hHit : ∀ m t, checkWalk (fin m) t = (finHit t || checkWalk m t))
    (hEnd : ∀ m, (fin m).is_end = (finEnd || m.is_end)) :
    ∀ (path : List Nat) (n : Node) (a : List Nat),
      checkWalk (insertWalk n path fin) a = (pathHit finHit finEnd path a || checkWalk n a) := by
  intro path
  induction path with
  | nil =>
    intro n a
    simpa [insertWalk, pathHit] using hHit n a
  | cons b path' ih =>
    intro n a
    cases a with
    | nil => simp [checkWalk, pathHit]
    | cons h t =>
      by_cases hb : b = h
      · subst hb
        simp only [insertWalk]
        rw [checkWalk_cons, childGet_childSet, if_pos rfl, Option.elim_some,
          is_end_insertWalk, ih, checkWalk_cons]
        have hph : pathHit finHit finEnd (b :: path') (b :: t) =
            ((path'.isEmpty && finEnd) || pathHit finHit finEnd path' t) := by
          simp [pathHit]
        rw [hph]
        cases hcg : childGet n b with
        | none =>
          simp only [Option.getD_none, Option.elim_none, checkWalk_emptyNode]
          cases hpe : path'.isEmpty
          · simp [hpe]
          · simp [hpe, hEnd]
        | some c =>
          simp only [Option.getD_some, Option.elim_some]
          cases hpe : path'.isEmpty
          · simp only [hpe, if_false, Bool.false_and, Bool.false_or]
            cases c.is_end <;> cases pathHit finHit finEnd path' t <;>
              cases checkWalk c t <;> simp
          · simp only [hpe, if_true, hEnd, Bool.true_and]
            cases hpht : pathHit finHit finEnd path' t <;> cases c.is_end <;>
              cases finEnd <;> cases checkWalk c t <;> simp
      · have hbh : ¬ (h = b) := fun he => hb he.symm
        simp only [insertWalk]
        rw [checkWalk_cons, childGet_childSet, if_neg hb, checkWalk_cons]
        simp [pathHit, hbh]

/-! ## Specializing `pathHit` to the two final actions -/

theorem pathHit_markEnd (path a : List Nat) :
    pathHit (fun _ => false) true path a =
      (!path.isEmpty && decide (a.take path.length = path)) := by
  induction path generalizing a with
  | nil => simp [pathHit]
  | cons b path' ih =>
    cases a with
    | nil => simp [pathHit]
    | cons h t =>
      simp only [pathHit, ih]
      by_cases hbh : h = b
      · subst hbh
        cases hpe : path'.isEmpty
        · have hne : path' ≠ [] := fun he => by simp [he] at hpe
          simp [hpe, List.take_cons, hne]
        · have hpnil : path' = [] := List.isEmpty_iff.mp (by simp [hpe])
          subst hpnil
          simp
      · rw [decide_eq_false hbh, Bool.false_and]
        rw [List.length_cons, List.take_succ_cons]
        have : ¬ (h :: t.take path'.length = b :: path') := by
          intro he
          exact hbh (List.cons_eq_cons.mp he).1
        simp [this]

theorem pathHit_noEnd (finHit : List Nat → Bool) (path a : List Nat) :
    pathHit finHit false path a =
      (decide (a.take path.length = path) && finHit (a.drop path.length)) := by
  induction path generalizing a with
  | nil => simp [pathHit]
  | cons b path' ih =>
    cases a with
    | nil => simp [pathHit]
    | cons h t =>
      simp only [pathHit, ih]
      by_cases hbh : h = b
      · subst hbh
        simp [List.take_cons, List.drop_succ_cons]
      · rw [decide_eq_false hbh, Bool.false_and]
        rw [List.length_cons, List.take_succ_cons]
        have : ¬ (h :: t.take path'.length = b :: path') := by
          intro he
          exact hbh (List.cons_eq_cons.mp he).1
        simp [this]

/-! ## The range model of `covers` versus the bit model -/

theorem maskBytes_zero (l : List Nat) : maskBytes l 0 = List.replicate l.length 0 := by
  induction l with
  | nil => rfl
  | cons b t ih => simp [maskBytes, ih, List.replicate_succ]

theorem broadcastBytes_replicate_zero (n : Nat) :
    broadcastBytes (List.replicate n 0) 0 = List.replicate n 255 := by
  induction n with
  | zero => rfl
  | succ k ih => simp [List.replicate_succ, broadcastBytes, ih]

theorem listLe_replicate_zero (a : List Nat) :
    listLe (List.replicate a.length 0) a = true := by
  induction a with
  | nil => rfl
  | cons h t ih =>
    simp only [List.length_cons, List.replicate_succ, listLe]
    rcases Nat.eq_zero_or_pos h with h0 | hpos
    · subst h0
      simpa using ih
    · simp [hpos]

theorem listLe_le_255 (a : List Nat) (ha : ∀ b ∈ a, b < 256) :
    listLe a (List.replicate a.length 255) = true := by
  induction a with
  | nil => rfl
  | cons h t ih =>
    have hh : h < 256 := ha h (by simp)
    simp only [List.length_cons, List.replicate_succ, listLe]
    rcases Nat.lt_or_ge h 255 with hlt | hge
    · simp [hlt]
    · have h255 : h = 255 := by omega
      simp [h255, ih (fun b hb => ha b (by simp [hb]))]

theorem listLe_zero_cons (n0 L a0 : Nat) (at' : List Nat) (hlen : at'.length = L) :
    listLe (n0 :: List.replicate L 0) (a0 :: at') = decide (n0 ≤ a0) := by
  simp only [listLe]
  rcases Nat.lt_trichotomy n0 a0 with h | h | h
  · rw [if_pos h, decide_eq_true (Nat.le_of_lt h)]
  · subst h
    rw [if_neg (Nat.lt_irrefl n0), if_pos rfl, ← hlen, listLe_replicate_zero at',
      decide_eq_true (Nat.le_refl n0)]
  · rw [if_neg (Nat.lt_asymm h), if_neg (Nat.ne_of_lt h).symm,
      decide_eq_false (by omega)]

theorem listLe_cons_255 (bc0 L a0 : Nat) (at' : List Nat)
    (hlen : at'.length = L) (hat : ∀ b ∈ at', b < 256) :
    listLe (a0 :: at') (bc0 :: List.replicate L 255) = decide (a0 ≤ bc0) := by
  simp only [listLe]
  rcases Nat.lt_trichotomy a0 bc0 with h | h | h
  · rw [if_pos h, decide_eq_true (Nat.le_of_lt h)]
  · subst h
    rw [if_neg (Nat.lt_irrefl a0), if_pos rfl, ← hlen, listLe_le_255 at' hat,
      decide_eq_true (Nat.le_refl a0)]
  · rw [if_neg (Nat.lt_asymm h), if_neg (Nat.ne_of_lt h).symm,
      decide_eq_false (by omega)]

/-- The range test `network ≤ a ≤ broadcast` is exactly "masking `a` to the
prefix gives the network bytes". -/
theorem covers_iff_mask (net a : List Nat) (plen : Nat)
    (hlen : net.length = a.length)
    (hn : ∀ b ∈ net, b < 256) (ha : ∀ b ∈ a, b < 256)
    (hz : maskBytes net plen = net) :
    (listLe net a && listLe a (broadcastBytes net plen)) = true ↔
      maskBytes a plen = net := by
  induction net generalizing a plen with
  | nil =>
    cases a with
    | nil => simp [listLe, broadcastBytes, maskBytes]
    | cons a0 at' => simp at hlen
  | cons n0 nt ih =>
    cases a with
    | nil => simp at hlen
    | cons a0 at' =>
      have hlen' : nt.length = at'.length := by simpa using hlen
      have hn0 : n0 < 256 := hn n0 (by simp)
      have ha0 : a0 < 256 := ha a0 (by simp)
      have hnt : ∀ b ∈ nt, b < 256 := fun b hb => hn b (by simp [hb])
      have hat : ∀ b ∈ at', b < 256 := fun b hb => ha b (by simp [hb])
      rw [maskBytes] at hz
      injection hz with hz0 hzt
      rcases Nat.lt_or_ge plen 8 with hp8 | hp8
      · rcases Nat.eq_zero_or_pos plen with hp0 | hppos
        · -- plen = 0 : wildcard; both sides hold
          subst hp0
          have hmin : (8 : Nat) - min 8 0 = 8 := by norm_num
          rw [hmin] at hz0
          have h256 : (256 : Nat) - 2 ^ 8 = 0 := by norm_num
          rw [h256, Nat.and_zero] at hz0
          obtain rfl : n0 = 0 := hz0.symm
          have hzt' : maskBytes nt 0 = nt := by simpa using hzt
          have hntz : nt = List.replicate nt.length 0 := by
            conv_lhs => rw [← hzt']
            exact maskBytes_zero nt
          have hRHS : maskBytes (a0 :: at') 0 = 0 :: nt := by
            rw [maskBytes_zero]
            simp only [List.length_cons, List.replicate_succ]
            rw [hntz, hlen']
          have h1 : listLe (0 :: nt) (a0 :: at') = true := by
            conv_lhs => rw [hntz]
            rw [listLe_zero_cons 0 nt.length a0 at' hlen'.symm]
            simp
          have h2 : listLe (a0 :: at') (broadcastBytes (0 :: nt) 0) = true := by
            rw [broadcastBytes, hmin]
            have hbc0 : (0 : Nat) ||| (2 ^ 8 - 1) = 255 := by norm_num
            rw [hbc0]
            have hbct : broadcastBytes nt (0 - 8) = List.replicate nt.length 255 := by
              have : (0 : Nat) - 8 = 0 := by norm_num
              rw [this]
              conv_lhs => rw [hntz]
              rw [broadcastBytes_replicate_zero]
            rw [hbct, listLe_cons_255 255 nt.length a0 at' hlen'.symm hat]
            exact decide_eq_true (by omega)
          rw [h1, h2, hRHS]
          simp
        · -- 0 < plen < 8 : partial byte at the head
          have hmin : min 8 plen = plen := by omega
          rw [hmin] at hz0
          have hsub : plen - 8 = 0 := by omega
          rw [hsub] at hzt
          have hntz : nt = List.replicate nt.length 0 := by
            conv_lhs => rw [← hzt]
            exact maskBytes_zero nt
          have hj8 : 8 - plen ≤ 8 := by omega
          have hpow : 0 < 2 ^ (8 - plen) := Nat.pos_pow_of_pos _ (by omega)
          have hbc0 : n0 ||| (2 ^ (8 - plen) - 1) = n0 + (2 ^ (8 - plen) - 1) :=
            lor_of_masked n0 (8 - plen) (2 ^ (8 - plen) - 1) hn0 hj8 (by omega) hz0
          have hle1 : listLe (n0 :: nt) (a0 :: at') = decide (n0 ≤ a0) := by
            conv_lhs => rw [hntz]
            exact listLe_zero_cons n0 nt.length a0 at' hlen'.symm
          have hbct : broadcastBytes nt (plen - 8) = List.replicate nt.length 255 := by
            rw [hsub]
            conv_lhs => rw [hntz]
            rw [broadcastBytes_replicate_zero]
          have hle2 : listLe (a0 :: at') (broadcastBytes (n0 :: nt) plen) =
              decide (a0 ≤ n0 + (2 ^ (8 - plen) - 1)) := by
            rw [broadcastBytes, hmin, hbct, hbc0]
            exact listLe_cons_255 (n0 + (2 ^ (8 - plen) - 1)) nt.length a0 at'
              hlen'.symm hat
          have htail : maskBytes at' (plen - 8) = nt := by
            rw [hsub, maskBytes_zero]
            conv_rhs => rw [hntz]
            rw [hlen']
          rw [hle1, hle2, maskBytes, hmin, htail]
          constructor
          · intro hcmp
            simp only [Bool.and_eq_true, decide_eq_true_eq] at hcmp
            rw [(partial_byte_iff n0 a0 (8 - plen) hn0 ha0 hj8 hz0).mp hcmp]
          · intro heq
            injection heq with heq0 _
            simp only [Bool.and_eq_true, decide_eq_true_eq]
            exact (partial_byte_iff n0 a0 (8 - plen) hn0 ha0 hj8 hz0).mpr heq0
      · -- plen ≥ 8 : the head byte must match exactly
        have hmin : (8 : Nat) - min 8 plen = 0 := by omega
        have ha0m : a0 &&& (256 - 2 ^ 0) = a0 := by
          simpa using land_255_eq a0 ha0
        have hbc0 : n0 ||| (2 ^ 0 - 1) = n0 := by simp
        rw [maskBytes, broadcastBytes, hmin, ha0m, hbc0]
        have hih := ih at' (plen - 8) hlen' hnt hat hzt
        rcases Nat.lt_trichotomy n0 a0 with h | h | h
        · -- network head below: the upper bound fails
          have h1 : listLe (a0 :: at') (n0 :: broadcastBytes nt (plen - 8)) = false := by
            simp [listLe, Nat.lt_asymm h, Nat.ne_of_gt h]
          rw [h1]
          constructor
          · intro hx; simp at hx
          · intro heq
            injection heq with heq0 heqt
            omega
        · subst h
          have h1 : listLe (n0 :: nt) (n0 :: at') = listLe nt at' := by
            simp [listLe]
          have h2 : listLe (n0 :: at') (n0 :: broadcastBytes nt (plen - 8)) =
              listLe at' (broadcastBytes nt (plen - 8)) := by
            simp [listLe]
          rw [h1, h2]
          constructor
          · intro hx
            rw [(hih.mp hx)]
          · intro heq
            injection heq with heq0 heqt
            exact hih.mpr heqt
        · have h1 : listLe (n0 :: nt) (a0 :: at') = false := by
            simp [listLe, Nat.lt_asymm h, Nat.ne_of_gt h]
          rw [h1]
          constructor
          · intro hx; simp at hx
          · intro heq
            injection heq with heq0 heqt
            omega

/-- Masking to a whole number of bytes is agreement on those bytes. -/
theorem mask_eq_iff_take (net a : List Nat) (fb : Nat)
    (hlen : net.length = a.length) (ha : ∀ b ∈ a, b < 256)
    (hz : maskBytes net (8 * fb) = net) :
    (maskBytes a (8 * fb) = net ↔ a.take fb = net.take fb) := by
  induction net generalizing a fb with
  | nil =>
    cases a with
    | nil => simp [maskBytes]
    | cons a0 at' => simp at hlen
  | cons n0 nt ih =>
    cases a with
    | nil => simp at hlen
    | cons a0 at' =>
      have hlen' : nt.length = at'.length := by simpa using hlen
      have ha0 : a0 < 256 := ha a0 (by simp)
      have hat : ∀ b ∈ at', b < 256 := fun b hb => ha b (by simp [hb])
      cases fb with
      | zero =>
        rw [Nat.mul_zero] at hz ⊢
        have hnetz : n0 :: nt = List.replicate (n0 :: nt).length 0 := by
          conv_lhs => rw [← hz]
          exact maskBytes_zero _
        constructor
        · intro _; simp
        · intro _
          rw [maskBytes_zero, hnetz, hlen]
      | succ k =>
        rw [maskBytes] at hz
        injection hz with hz0 hzt
        have hsub : 8 * (k + 1) - 8 = 8 * k := by omega
        rw [hsub] at hzt
        have hmin : (8 : Nat) - min 8 (8 * (k + 1)) = 0 := by omega
        rw [maskBytes, hmin, hsub]
        have hhead : a0 &&& (256 - 2 ^ 0) = a0 := by
          have h255 : (256 : Nat) - 2 ^ 0 = 255 := by norm_num
          rw [h255]; exact land_255_eq a0 ha0
        rw [hhead, List.take_succ_cons, List.take_succ_cons]
        simp only [List.cons_eq_cons]
        exact and_congr Iff.rfl (ih at' k hlen' hat hzt)

/-- Masking to `8*fb + rem` bits (`1 ≤ rem ≤ 7`) is agreement on the first
`fb` bytes plus agreement of the next byte's top `rem` bits. -/
theorem mask_eq_iff_take_land (net a : List Nat) (fb rem : Nat)
    (h1 : 1 ≤ rem) (h2 : rem ≤ 7)
    (hlen : net.length = a.length) (hfb : fb < net.length)
    (ha : ∀ b ∈ a, b < 256)
    (hz : maskBytes net (8 * fb + rem) = net) :
    (maskBytes a (8 * fb + rem) = net ↔
      (a.take fb = net.take fb ∧
        a.getD fb 0 &&& (256 - 2 ^ (8 - rem)) = net.getD fb 0)) := by
  induction net generalizing a fb with
  | nil => simp at hfb
  | cons n0 nt ih =>
    cases a with
    | nil => simp at hlen
    | cons a0 at' =>
      have hlen' : nt.length = at'.length := by simpa using hlen
      have ha0 : a0 < 256 := ha a0 (by simp)
      have hat : ∀ b ∈ at', b < 256 := fun b hb => ha b (by simp [hb])
      cases fb with
      | zero =>
        rw [Nat.mul_zero, Nat.zero_add] at hz ⊢
        rw [maskBytes] at hz
        injection hz with hz0 hzt
        have hmin : min 8 rem = rem := by omega
        have hsub : rem - 8 = 0 := by omega
        rw [hsub] at hzt
        have hntz : nt = List.replicate nt.length 0 := by
          conv_lhs => rw [← hzt]
          exact maskBytes_zero nt
        have htail : maskBytes at' (rem - 8) = nt := by
          rw [hsub, maskBytes_zero]
          conv_rhs => rw [hntz]
          rw [hlen']
        rw [maskBytes, hmin, htail]
        simp [List.cons_eq_cons]
      | succ k =>
        rw [maskBytes] at hz
        injection hz with hz0 hzt
        have hsub : 8 * (k + 1) + rem - 8 = 8 * k + rem := by omega
        rw [hsub] at hzt
        have hmin : (8 : Nat) - min 8 (8 * (k + 1) + rem) = 0 := by omega
        rw [maskBytes, hmin, hsub]
        have hhead : a0 &&& (256 - 2 ^ 0) = a0 := by
          have h255 : (256 : Nat) - 2 ^ 0 = 255 := by norm_num
          rw [h255]; exact land_255_eq a0 ha0
        rw [hhead, List.take_succ_cons, List.take_succ_cons, List.getD_cons_succ,
          List.getD_cons_succ]
        simp only [List.cons_eq_cons]
        rw [ih at' k hlen' (by simpa using hfb) hat hzt]
        exact and_assoc.symm

/-- Membership of the expansion range `{base ||| o : o < 2^j}` is the
mask condition on the byte. -/
theorem range_mem_iff (x base j : Nat) (hx : x < 256) (hbase : base < 256)
    (hj : j ≤ 8) (hb : base &&& (256 - 2 ^ j) = base) :
    (∃ o, o < 2 ^ j ∧ x = base ||| o) ↔ x &&& (256 - 2 ^ j) = base := by
  have hpos : 0 < 2 ^ j := Nat.pos_pow_of_pos j (by omega)
  constructor
  · rintro ⟨o, ho, rfl⟩
    have hadd : base ||| o = base + o := lor_of_masked base j o hbase hj ho hb
    rw [hadd] at hx ⊢
    exact (partial_byte_iff base (base + o) j hbase hx hj hb).mp
      ⟨Nat.le_add_right base o, by omega⟩
  · intro hxm
    have hr := (partial_byte_iff base x j hbase hx hj hb).mpr hxm
    refine ⟨x - base, by omega, ?_⟩
    rw [lor_of_masked base j (x - base) hbase hj (by omega) hb]
    omega

theorem bool_eq_of_iff {P : Prop} (x y : Bool) (hx : x = true ↔ P) (hy : y = true ↔ P) :
    x = y := by
  cases x <;> cases y <;> simp_all

/-! ## Unfolding `insertCidr` in its three regimes -/

theorem insertCidr_zero (root : Node) (net : List Nat) (bc : List Nat) :
    insertCidr root net 0 bc = .mk true (some net) (some bc) root.children := by
  unfold insertCidr
  rw [if_pos rfl]

theorem insertCidr_rem0 (root : Node) (net : List Nat) (plen : Nat) (bc : List Nat)
    (hp : plen ≠ 0) (hrem : plen % 8 = 0) :
    insertCidr root net plen bc =
      insertWalk root (net.take (plen / 8)) (fun n => markAsEndNode n net bc) := by
  unfold insertCidr
  rw [if_neg hp]
  simp only [shiftRight3_eq, land7_eq, hrem, eq_self_iff_true, if_true]

theorem insertCidr_remPos (root : Node) (net : List Nat) (plen : Nat) (bc : List Nat)
    (hp : plen ≠ 0) (hrem : plen % 8 ≠ 0) :
    insertCidr root net plen bc =
      insertWalk root (net.take (plen / 8))
        (fun n => expandMark n ((net.getD (plen / 8) 0) &&& (256 - 2 ^ (8 - plen % 8)))
          (2 ^ (8 - plen % 8)) net bc) := by
  unfold insertCidr
  rw [if_neg hp]
  simp only [shiftRight3_eq, land7_eq, if_neg hrem]
  rw [masks_getD_eq (plen % 8) (by omega) (by omega), one_shiftLeft_eq]

theorem covers_mk (net : List Nat) (plen : Nat) (a : List Nat) :
    covers ⟨net, plen⟩ a = (listLe net a && listLe a (broadcastBytes net plen)) := rfl

theorem isEmpty_eq_false_of_ne_nil {α : Type} {l : List α} (h : l ≠ []) :
    l.isEmpty = false := by
  cases l with
  | nil => exact absurd rfl h
  | cons x xs => rfl

/-- One `_insert_cidr` step changes membership by exactly the inserted
prefix's address range: for an address of the prefix's family,
check-after-insert = covers-or-check-before. -/
theorem checkBytes_insertCidr (T : Node) (net : List Nat) (plen : Nat) (a : List Nat)
    (hb : ∀ x ∈ net, x < 256) (hplen : plen ≤ 8 * net.length)
    (hz : maskBytes net plen = net)
    (hlen : net.length = a.length) (ha : ∀ x ∈ a, x < 256) :
    checkBytes (insertCidr T net plen (broadcastBytes net plen)) a
      = (covers ⟨net, plen⟩ a || checkBytes T a) := by
  by_cases hp0 : plen = 0
  · subst hp0
    rw [insertCidr_zero]
    have hnetz : net = List.replicate net.length 0 := by
      conv_lhs => rw [← hz]
      exact maskBytes_zero net
    have hcov : covers ⟨net, 0⟩ a = true := by
      rw [covers_mk]
      refine (covers_iff_mask net a 0 hlen hb ha hz).mpr ?_
      rw [maskBytes_zero]
      conv_rhs => rw [hnetz]
      rw [hlen]
    rw [hcov]
    simp [checkBytes]
  · have hnet_ne : net ≠ [] := by
      intro h
      rw [h] at hplen
      simp at hplen
      omega
    by_cases hrem : plen % 8 = 0
    · obtain ⟨fb, rfl⟩ : ∃ fb, plen = 8 * fb := ⟨plen / 8, by omega⟩
      have hdiv : 8 * fb / 8 = fb := by omega
      have hfb1 : 1 ≤ fb := by omega
      have hfble : fb ≤ net.length := by omega
      rw [insertCidr_rem0 T net _ _ hp0 hrem, hdiv]
      have hpath_ne : net.take fb ≠ [] := by
        rw [Ne, List.take_eq_nil_iff]
        push_neg
        exact ⟨by omega, hnet_ne⟩
      have hwalk := checkWalk_insertWalk
        (fun n => markAsEndNode n net (broadcastBytes net (8 * fb)))
        (fun _ => false) true
        (fun m t => by rw [checkWalk_markAsEndNode]; simp)
        (fun m => by simp [markAsEndNode])
        (net.take fb) T a
      have hph : pathHit (fun _ => false) true (net.take fb) a
          = covers ⟨net, 8 * fb⟩ a := by
        rw [pathHit_markEnd, isEmpty_eq_false_of_ne_nil hpath_ne,
          List.length_take, Nat.min_def, if_pos hfble]
        apply bool_eq_of_iff (P := a.take fb = net.take fb)
        · simp
        · rw [covers_mk]
          exact (covers_iff_mask net a _ hlen hb ha hz).trans
            (mask_eq_iff_take net a fb hlen ha hz)
      unfold checkBytes
      rw [is_end_insertWalk, isEmpty_eq_false_of_ne_nil hpath_ne]
      simp only [Bool.false_eq_true, if_false]
      rw [hwalk, hph]
      cases T.is_end <;> simp
    · obtain ⟨fb, r, hr1, hr7, rfl⟩ : ∃ fb r, 1 ≤ r ∧ r ≤ 7 ∧ plen = 8 * fb + r :=
        ⟨plen / 8, plen % 8, by omega, by omega, by omega⟩
      have hdiv : (8 * fb + r) / 8 = fb := by omega
      have hmod : (8 * fb + r) % 8 = r := by omega
      have hfblt : fb < net.length := by omega
      have hfble : fb ≤ net.length := by omega
      have hfba : fb < a.length := by omega
      rw [insertCidr_remPos T net _ _ hp0 (by omega), hdiv, hmod]
      have hnetfb : net.getD fb 0 < 256 := by
        rw [List.getD_eq_getElem net 0 hfblt]
        exact hb _ (List.getElem_mem _)
      have hafb : a.getD fb 0 < 256 := by
        rw [List.getD_eq_getElem a 0 hfba]
        exact ha _ (List.getElem_mem _)
      have hself := (mask_eq_iff_take_land net net fb r hr1 hr7 rfl hfblt hb hz).mp hz
      have hbyte : net.getD fb 0 &&& (256 - 2 ^ (8 - r)) = net.getD fb 0 := hself.2
      rw [hbyte]
      have hdrop : a.drop fb = a.getD fb 0 :: a.drop (fb + 1) := by
        rw [List.getD_eq_getElem a 0 hfba]
        exact List.drop_eq_getElem_cons hfba
      have hwalk := checkWalk_insertWalk
        (fun n => expandMark n (net.getD fb 0) (2 ^ (8 - r)) net
          (broadcastBytes net (8 * fb + r)))
        (rangeHitB (net.getD fb 0) (2 ^ (8 - r))) false
        (fun m t => checkWalk_expandMark m _ _ _ _ t)
        (fun m => by simp [is_end_expandMark])
        (net.take fb) T a
      have hph : pathHit (rangeHitB (net.getD fb 0) (2 ^ (8 - r))) false (net.take fb) a
          = covers ⟨net, 8 * fb + r⟩ a := by
        rw [pathHit_noEnd, List.length_take, Nat.min_def, if_pos hfble, hdrop]
        apply bool_eq_of_iff
          (P := a.take fb = net.take fb ∧
            a.getD fb 0 &&& (256 - 2 ^ (8 - r)) = net.getD fb 0)
        · simp only [rangeHitB, Bool.and_eq_true, decide_eq_true_eq]
          exact and_congr Iff.rfl
            (range_mem_iff (a.getD fb 0) (net.getD fb 0) (8 - r) hafb hnetfb
              (by omega) hbyte)
        · rw [covers_mk]
          exact (covers_iff_mask net a _ hlen hb ha hz).trans
            (mask_eq_iff_take_land net a fb r hr1 hr7 hlen hfblt ha hz)
      unfold checkBytes
      rw [is_end_insertWalk]
      have hie : (if (net.take fb).isEmpty = true
          then (expandMark T (net.getD fb 0) (2 ^ (8 - r)) net
            (broadcastBytes net (8 * fb + r))).is_end
          else T.is_end) = T.is_end := by
        split
        · exact is_end_expandMark T _ _ _ _
        · rfl
      rw [hie, hwalk, hph]
      cases T.is_end <;> simp

/-- Membership over a fold of `_insert_cidr` calls. -/
theorem checkBytes_foldl_insert (ps : List Pfx) (a : List Nat)
    (ha : ∀ x ∈ a, x < 256) :
    ∀ T : Node, (∀ p ∈ ps, ValidPfx p ∧ p.net.length = a.length) →
      checkBytes (ps.foldl (fun t p => insertCidr t p.net p.plen
        (broadcastBytes p.net p.plen)) T) a
        = (checkBytes T a || ps.any (fun p => covers p a)) := by
  induction ps with
  | nil =>
    intro T _
    simp
  | cons p ps ih =>
    intro T hps
    obtain ⟨⟨hb, hplen, hz⟩, hlen⟩ := hps p (by simp)
    rw [List.foldl_cons, ih _ (fun q hq => hps q (by simp [hq])),
      checkBytes_insertCidr T p.net p.plen a hb hplen hz hlen ha, List.any_cons]
    cases covers p a <;> cases checkBytes T a <;>
      cases ps.any (fun p => covers p a) <;> simp

/-- **C1.** For every sequence of successfully inserted CIDR prefixes and
every address given as canonical bytes of the matching family, `check`
returns true iff some stored prefix covers the address (the address lies
between the prefix's network and broadcast addresses). -/
theorem check_iff_exists_cover (ps : List Pfx) (a : List Nat)
    (hps : ∀ p ∈ ps, ValidPfx p ∧ p.net.length = a.length)
    (ha : ∀ x ∈ a, x < 256) :
    (checkBytes (insertAll ps) a = true ↔ ∃ p ∈ ps, covers p a = true) := by
  unfold insertAll
  rw [checkBytes_foldl_insert ps a ha emptyNode hps]
  simp [List.any_eq_true]

/-- Witness for C1 at a concrete prefix set and address. -/
theorem check_iff_exists_cover_witness :
    (∀ p ∈ [Pfx.mk [10, 0, 0, 0] 8, Pfx.mk [172, 16, 0, 0] 12],
        ValidPfx p ∧ p.net.length = ([172, 31, 0, 5] : List Nat).length) ∧
      (∀ x ∈ ([172, 31, 0, 5] : List Nat), x < 256) ∧
      (checkBytes (insertAll [Pfx.mk [10, 0, 0, 0] 8, Pfx.mk [172, 16, 0, 0] 12])
          [172, 31, 0, 5] = true ↔
        ∃ p ∈ [Pfx.mk [10, 0, 0, 0] 8, Pfx.mk [172, 16, 0, 0] 12],
          covers p [172, 31, 0, 5] = true) :=
  ⟨by decide, by decide,
    check_iff_exists_cover [Pfx.mk [10, 0, 0, 0] 8, Pfx.mk [172, 16, 0, 0] 12]
      [172, 31, 0, 5] (by decide) (by decide)⟩

/-! ## The engine states with their lookup caches

`CIDARTHA4` clears the `check` LRU cache (and the parse cache) inside every
mutator; `CIDARTHA5`'s mutators never touch its caches.  The LRU memo is
modeled as an association list from query bytes to results; eviction at
`maxsize` only forgets entries and does not affect the properties stated
here (the traces below stay far below any bound). -/

structure Engine4 : Type where
  root : Node
  cache : List (List Nat × Bool)

/-- A freshly constructed `CIDARTHA()` (variant 4). -/
def Engine4.init : Engine4 := ⟨emptyNode, []⟩

/-- `CIDARTHA4.check`: consult the memo, else walk the trie and record. -/
def check4 (e : Engine4) (a : List Nat) : Bool × Engine4 :=
  match alGet e.cache a with
  | some v => (v, e)
  | none => (checkBytes e.root a, ⟨e.root, alSet e.cache a (checkBytes e.root a)⟩)

/-- `CIDARTHA4.insert` (parsed prefix): `_insert_cidr`, then
`self.check.cache_clear()`. -/
def insert4 (e : Engine4) (p : Pfx) : Engine4 :=
  ⟨insertCidr e.root p.net p.plen (broadcastBytes p.net p.plen), []⟩

/-- `CIDARTHA4.remove` (parsed prefix): unmark and prune, then clear the
cache (the `/0` branch rebuilds the root and also clears). -/
def remove4 (e : Engine4) (p : Pfx) : Engine4 :=
  ⟨removeCidr e.root p.net p.plen, []⟩

/-- `CIDARTHA4.clear`: fresh root, cache cleared. -/
def clear4 (_ : Engine4) : Engine4 := ⟨emptyNode, []⟩

structure Engine5 : Type where
  root : Node
  cache : List (List Nat × Bool)

/-- A freshly constructed `CIDARTHA()` (variant 5, default "normalized"
strategy: the memo on `_check_bytes_impl` is keyed on canonical bytes). -/
def Engine5.init : Engine5 := ⟨emptyNode, []⟩

/-- `CIDARTHA5.check` via `_check_normalized` / `_check_bytes_cached`. -/
def check5 (e : Engine5) (a : List Nat) : Bool × Engine5 :=
  match alGet e.cache a with
  | some v => (v, e)
  | none => (checkBytes e.root a, ⟨e.root, alSet e.cache a (checkBytes e.root a)⟩)

/-- `CIDARTHA5.insert` (parsed prefix): `_insert_cidr` only — no cache
invalidation appears in the mutator. -/
def insert5 (e : Engine5) (p : Pfx) : Engine5 :=
  ⟨insertCidr5 e.root p.net p.plen (broadcastBytes p.net p.plen), e.cache⟩

/-- `CIDARTHA5.remove`: no cache invalidation. -/
def remove5 (e : Engine5) (p : Pfx) : Engine5 :=
  ⟨removeCidr e.root p.net p.plen, e.cache⟩

/-- `CIDARTHA5.clear`: fresh root, cache untouched. -/
def clear5 (e : Engine5) : Engine5 := ⟨emptyNode, e.cache⟩

/-- A child's terminal flag, read through the dict (`False` when absent). -/
def childIsEnd (n : Node) (b : Nat) : Bool :=
  ((childGet n b).map Node.is_end).getD false

set_option maxRecDepth 4000 in
/-- **C2.** Inserting `172.16.0.0/12`: the CIDARTHA4 mutator creates and
marks terminal exactly the `2^4 = 16` children with byte values in
`[16, 31]` under the `172` node, so the whole range matches and `172.32.0.1`
does not; the CIDARTHA5 mutator creates only the single base child `16`,
so `172.31.255.254` fails to match there. -/
theorem partial_byte_expansion_concrete :
    ((List.range 256).all (fun b =>
        decide (16 ≤ b ∧ b ≤ 31) ==
          childIsEnd ((childGet (insertCidr emptyNode [172, 16, 0, 0] 12
            [172, 31, 255, 255]) 172).getD emptyNode) b) = true)
    ∧ checkBytes (insertCidr emptyNode [172, 16, 0, 0] 12 [172, 31, 255, 255])
        [172, 16, 0, 1] = true
    ∧ checkBytes (insertCidr emptyNode [172, 16, 0, 0] 12 [172, 31, 255, 255])
        [172, 31, 255, 254] = true
    ∧ checkBytes (insertCidr emptyNode [172, 16, 0, 0] 12 [172, 31, 255, 255])
        [172, 32, 0, 1] = false
    ∧ checkBytes (insertCidr5 emptyNode [172, 16, 0, 0] 12 [172, 31, 255, 255])
        [172, 31, 255, 254] = false := by
  refine ⟨by decide, by decide, by decide, by decide, by decide⟩

/-- **C10.** `check` on the empty byte string is exactly the root's terminal
flag; on a fresh or cleared engine it is false. -/
theorem check_empty_bytes (t : Node) :
    (checkBytes t [] = true ↔ t.is_end = true)
    ∧ checkBytes Engine4.init.root [] = false
    ∧ checkBytes (clear4 ⟨t, []⟩).root [] = false := by
  refine ⟨?_, rfl, rfl⟩
  unfold checkBytes
  cases ht : t.is_end <;> simp [checkWalk]

/-! ## Serialization (`to_compact_tuple` / `from_compact_tuple`,
`dump` / `load`) -/

/-- The compact tuple of `CIDARTHANode.to_compact_tuple`:
`(is_end, range_start, range_end, children_map)`. -/
inductive CompactT : Type where
  | mk (is_end : Bool) (range_start : Option (List Nat)) (range_end : Option (List Nat))
      (children : Option (List (Nat × CompactT))) : CompactT

mutual

/-- `CIDARTHANode.to_compact_tuple`: serialize the children recursively; a
falsy dict (`None` or empty) serializes as `None`. -/
def toCompact : Node → CompactT
  | .mk e rs re none => .mk e rs re none
  | .mk e rs re (some cs) =>
      .mk e rs re (if cs.isEmpty then none else some (toCompactL cs))

def toCompactL : List (Nat × Node) → List (Nat × CompactT)
  | [] => []
  | (k, v) :: rest => (k, toCompact v) :: toCompactL rest

end

mutual

/-- `CIDARTHANode.from_compact_tuple`: a falsy children map deserializes to
an absent dict. -/
def fromCompact : CompactT → Node
  | .mk e rs re none => .mk e rs re none
  | .mk e rs re (some cs) =>
      .mk e rs re (if cs.isEmpty then none else some (fromCompactL cs))

def fromCompactL : List (Nat × CompactT) → List (Nat × Node)
  | [] => []
  | (k, v) :: rest => (k, fromCompact v) :: fromCompactL rest

end

/-- `CIDARTHA.dump`: the envelope `{root: root.to_compact_tuple()}` packed by
msgpack.  The external msgpack encode/decode pair is modeled by its contract
as faithful transport of the compact tuple, so `dump` is the tuple itself. -/
def dump (root : Node) : CompactT := toCompact root

/-- `CIDARTHA.load`: unpack the envelope and rebuild the root with
`from_compact_tuple`. -/
def load (d : CompactT) : Node := fromCompact d

theorem fromCompactL_toCompactL (cs : List (Nat × Node)) :
    fromCompactL (toCompactL cs) =
      cs.map (fun kv => (kv.1, fromCompact (toCompact kv.2))) := by
  induction cs with
  | nil => rfl
  | cons kv rest ih =>
    obtain ⟨k, v⟩ := kv
    simp [toCompactL, fromCompactL, ih]

theorem alGet_map_snd {α β : Type} (f : α → β) (l : List (Nat × α)) (b : Nat) :
    alGet (l.map (fun kv => (kv.1, f kv.2))) b = (alGet l b).map f := by
  induction l with
  | nil => rfl
  | cons kv rest ih =>
    obtain ⟨k, v⟩ := kv
    by_cases hk : k = b <;> simp [alGet, hk, ih]

theorem is_end_roundtrip (n : Node) :
    (fromCompact (toCompact n)).is_end = n.is_end := by
  cases n with
  | mk e rs re ch =>
    cases ch with
    | none => rfl
    | some cs =>
      cases cs with
      | nil => rfl
      | cons kv rest =>
        simp only [toCompact, List.isEmpty_cons]
        rw [if_neg (by simp)]
        simp only [fromCompact]
        rw [if_neg (by simp [toCompactL])]
        rfl

theorem childGet_roundtrip (n : Node) (b : Nat) :
    childGet (fromCompact (toCompact n)) b =
      (childGet n b).map (fun c => fromCompact (toCompact c)) := by
  cases n with
  | mk e rs re ch =>
    cases ch with
    | none => rfl
    | some cs =>
      cases cs with
      | nil => simp [toCompact, fromCompact, childGet]
      | cons kv rest =>
        simp only [toCompact, List.isEmpty_cons]
        rw [if_neg (by simp)]
        simp only [fromCompact]
        rw [if_neg (by simp [toCompactL])]
        simp only [childGet, Node.children_mk]
        rw [fromCompactL_toCompactL]
        exact alGet_map_snd (fun c => fromCompact (toCompact c)) (kv :: rest) b

/-- **C3.** `load (dump T)` answers every membership query exactly as `T`
does: the serializer round-trip is observationally the identity. -/
theorem load_dump_check (n : Node) (a : List Nat) :
    checkBytes (load (dump n)) a = checkBytes n a := by
  unfold load dump
  have main : ∀ (bytes : List Nat) (m : Node),
      checkWalk (fromCompact (toCompact m)) bytes = checkWalk m bytes := by
    intro bytes
    induction bytes with
    | nil => intro m; rfl
    | cons h t ih =>
      intro m
      rw [checkWalk_cons, checkWalk_cons, childGet_roundtrip]
      cases hcg : childGet m h with
      | none => rfl
      | some c =>
        simp only [Option.map_some', Option.elim_some]
        rw [is_end_roundtrip, ih c]
  unfold checkBytes
  rw [is_end_roundtrip, main a n]

/-! ## The address normalizer (`_ip_to_bytes`) -/

/-- `int.to_bytes(k, "big")`: big-endian byte string of `n` in `k` bytes. -/
def toBytesBE (n k : Nat) : List Nat :=
  match k with
  | 0 => []
  | k + 1 => toBytesBE (n / 256) k ++ [n % 256]

/-- `int.bit_length()`. -/
def bitLength (n : Nat) : Nat := if n = 0 then 0 else Nat.log2 n + 1

/-- The heterogeneous inputs `_ip_to_bytes` accepts.  A textual address is
modeled by the canonical packed bytes the platform `inet_pton` (external)
produces for it; an address object by its `packed` view. -/
inductive IPInput : Type where
  | bytes (b : List Nat)
  | text (packed : List Nat)
  | int (n : Nat)
  | obj (packed : List Nat)

/-- `_ip_to_bytes`: raw bytes pass through; text parses to its packed form;
a non-negative integer is encoded big-endian in the minimum number of bytes
(`(bit_length + 7) >> 3`, zero as a single zero byte); an address object
yields its `packed` bytes. -/
def ipToBytes : IPInput → List Nat
  | .bytes b => b
  | .text p => p
  | .int n => if n = 0 then [0] else toBytesBE n ((bitLength n + 7) >>> 3)
  | .obj p => p

/-- `check` on a heterogeneous input: normalize, then walk. -/
def checkOn (root : Node) (ip : IPInput) : Bool :=
  checkBytes root (ipToBytes ip)

/-- The numeric (big-endian) value of a byte string — the integer form of
the same address. -/
def bytesToNat (l : List Nat) : Nat := l.foldl (fun acc b => acc * 256 + b) 0

theorem bytesToNat_append_singleton (xs : List Nat) (x : Nat) :
    bytesToNat (xs ++ [x]) = bytesToNat xs * 256 + x := by
  unfold bytesToNat
  rw [List.foldl_append]
  rfl

theorem bytesToNat_foldl_acc (l : List Nat) :
    ∀ acc, l.foldl (fun acc b => acc * 256 + b) acc
      = acc * 256 ^ l.length + l.foldl (fun acc b => acc * 256 + b) 0 := by
  induction l with
  | nil => intro acc; simp
  | cons b t ih =>
    intro acc
    rw [List.foldl_cons, ih (acc * 256 + b), List.foldl_cons, ih (0 * 256 + b)]
    simp only [List.length_cons]
    ring

theorem bytesToNat_cons (x : Nat) (l : List Nat) :
    bytesToNat (x :: l) = x * 256 ^ l.length + bytesToNat l := by
  unfold bytesToNat
  rw [List.foldl_cons, bytesToNat_foldl_acc l (0 * 256 + x)]
  ring_nf

theorem bytesToNat_lt (l : List Nat) (hl : ∀ x ∈ l, x < 256) :
    bytesToNat l < 256 ^ l.length := by
  induction l with
  | nil => simp [bytesToNat]
  | cons x t ih =>
    have hx : x < 256 := hl x (by simp)
    have ht := ih (fun y hy => hl y (by simp [hy]))
    rw [bytesToNat_cons, List.length_cons, pow_succ]
    have h1 : x * 256 ^ t.length + bytesToNat t < (x + 1) * 256 ^ t.length := by
      have := Nat.pos_pow_of_pos t.length (show 0 < 256 by norm_num)
      nlinarith
    calc x * 256 ^ t.length + bytesToNat t < (x + 1) * 256 ^ t.length := h1
      _ ≤ 256 * 256 ^ t.length := by
          exact Nat.mul_le_mul_right _ (by omega)
      _ = 256 ^ t.length * 256 := by ring

theorem toBytesBE_bytesToNat (l : List Nat) (hl : ∀ x ∈ l, x < 256) :
    toBytesBE (bytesToNat l) l.length = l := by
  induction l using List.reverseRecOn with
  | nil => rfl
  | append_singleton xs x ih =>
    have hx : x < 256 := hl x (by simp)
    have hxs : ∀ y ∈ xs, y < 256 := fun y hy => hl y (by simp [hy])
    rw [bytesToNat_append_singleton, List.length_append, List.length_singleton]
    show toBytesBE (bytesToNat xs * 256 + x) (xs.length + 1) = xs ++ [x]
    unfold toBytesBE
    have hdiv : (bytesToNat xs * 256 + x) / 256 = bytesToNat xs := by
      rw [Nat.mul_comm, Nat.mul_add_div (by norm_num : (0 : Nat) < 256),
        Nat.div_eq_of_lt hx, Nat.add_zero]
    have hmod : (bytesToNat xs * 256 + x) % 256 = x := by
      rw [Nat.mul_comm, Nat.mul_add_mod, Nat.mod_eq_of_lt hx]
    rw [hdiv, hmod, ih hxs]

/-- For a byte string with a nonzero leading byte, the minimum-length
big-endian integer encoding recovers exactly the original bytes. -/
theorem ipToBytes_int_of_leading_pos (a0 : Nat) (rest : List Nat)
    (h0 : 1 ≤ a0) (ha : ∀ x ∈ a0 :: rest, x < 256) :
    ipToBytes (.int (bytesToNat (a0 :: rest))) = a0 :: rest := by
  have ha0 : a0 < 256 := ha a0 (by simp)
  have hlow : 256 ^ rest.length ≤ bytesToNat (a0 :: rest) := by
    rw [bytesToNat_cons]
    calc 256 ^ rest.length = 1 * 256 ^ rest.length := by ring
      _ ≤ a0 * 256 ^ rest.length := Nat.mul_le_mul_right _ h0
      _ ≤ a0 * 256 ^ rest.length + bytesToNat rest := Nat.le_add_right _ _
  have hhigh : bytesToNat (a0 :: rest) < 256 ^ (rest.length + 1) := by
    have := bytesToNat_lt (a0 :: rest) ha
    simpa using this
  have hne : bytesToNat (a0 :: rest) ≠ 0 := by
    have : 0 < 256 ^ rest.length := Nat.pos_pow_of_pos _ (by norm_num)
    omega
  have h256 : (256 : Nat) = 2 ^ 8 := by norm_num
  have hlow2 : 2 ^ (8 * rest.length) ≤ bytesToNat (a0 :: rest) := by
    calc 2 ^ (8 * rest.length) = 256 ^ rest.length := by
          rw [h256, ← pow_mul]
      _ ≤ _ := hlow
  have hhigh2 : bytesToNat (a0 :: rest) < 2 ^ (8 * rest.length + 8) := by
    calc bytesToNat (a0 :: rest) < 256 ^ (rest.length + 1) := hhigh
      _ = 2 ^ (8 * rest.length + 8) := by
          rw [h256, ← pow_mul]
          ring_nf
  have hlog_lo : 8 * rest.length ≤ Nat.log2 (bytesToNat (a0 :: rest)) := by
    rw [Nat.log2_eq_log_two]
    exact (Nat.pow_le_iff_le_log (by norm_num) hne).mp hlow2
  have hlog_hi : Nat.log2 (bytesToNat (a0 :: rest)) < 8 * rest.length + 8 := by
    rw [Nat.log2_eq_log_two]
    exact (Nat.lt_pow_iff_log_lt (by norm_num) hne).mp hhigh2
  have hcount : (bitLength (bytesToNat (a0 :: rest)) + 7) >>> 3
      = rest.length + 1 := by
    rw [shiftRight3_eq]
    unfold bitLength
    rw [if_neg hne]
    omega
  simp only [ipToBytes]
  rw [if_neg hne, hcount]
  have := toBytesBE_bytesToNat (a0 :: rest) ha
  simpa using this

/-- **C7 counterexample.** With `0.0.0.0/8` stored, the address `0.0.0.1`
matches in its canonical 4-byte form but not in its integer form: the
integer `1` is encoded as the single byte `0x01`, whose descent fails. -/
theorem presentation_form_counterexample :
    bytesToNat [0, 0, 0, 1] = 1
    ∧ checkOn (insertCidr emptyNode [0, 0, 0, 0] 8 [0, 255, 255, 255])
        (.bytes [0, 0, 0, 1]) = true
    ∧ checkOn (insertCidr emptyNode [0, 0, 0, 0] 8 [0, 255, 255, 255])
        (.int 1) = false := by
  refine ⟨by decide, by decide, ?_⟩
  have h1 : ipToBytes (.int 1) = [1] := by
    simp only [ipToBytes]
    rw [if_neg (by omega)]
    have hl : bitLength 1 = 1 := by
      unfold bitLength
      rw [if_neg (by omega)]
      rw [Nat.log2_eq_log_two]
      simp
    rw [hl]
    rfl
  unfold checkOn
  rw [h1]
  decide

/-- **C7 amended.** `check` ignores the presentation form of an address —
text, bytes, integer, and packed-object forms agree — provided the integer
form's minimum-length encoding has the canonical length, i.e. the canonical
bytes have a nonzero leading byte. -/
theorem check_presentation_forms (t : Node) (a0 : Nat) (rest : List Nat)
    (h0 : 1 ≤ a0) (ha : ∀ x ∈ a0 :: rest, x < 256) :
    checkOn t (.text (a0 :: rest)) = checkOn t (.bytes (a0 :: rest))
    ∧ checkOn t (.int (bytesToNat (a0 :: rest))) = checkOn t (.bytes (a0 :: rest))
    ∧ checkOn t (.obj (a0 :: rest)) = checkOn t (.bytes (a0 :: rest)) := by
  refine ⟨rfl, ?_, rfl⟩
  unfold checkOn
  rw [ipToBytes_int_of_leading_pos a0 rest h0 ha]
  rfl

/-- Witness for the amended C7 at a concrete trie and address. -/
theorem check_presentation_forms_witness :
    (1 : Nat) ≤ 192 ∧ (∀ x ∈ ([192, 168, 1, 7] : List Nat), x < 256)
    ∧ (checkOn (insertCidr emptyNode [192, 168, 0, 0] 16 [192, 168, 255, 255])
          (.text (192 :: [168, 1, 7]))
        = checkOn (insertCidr emptyNode [192, 168, 0, 0] 16 [192, 168, 255, 255])
          (.bytes (192 :: [168, 1, 7]))
      ∧ checkOn (insertCidr emptyNode [192, 168, 0, 0] 16 [192, 168, 255, 255])
          (.int (bytesToNat (192 :: [168, 1, 7])))
        = checkOn (insertCidr emptyNode [192, 168, 0, 0] 16 [192, 168, 255, 255])
          (.bytes (192 :: [168, 1, 7]))
      ∧ checkOn (insertCidr emptyNode [192, 168, 0, 0] 16 [192, 168, 255, 255])
          (.obj (192 :: [168, 1, 7]))
        = checkOn (insertCidr emptyNode [192, 168, 0, 0] 16 [192, 168, 255, 255])
          (.bytes (192 :: [168, 1, 7]))) :=
  ⟨by decide, by decide,
    check_presentation_forms
      (insertCidr emptyNode [192, 168, 0, 0] 16 [192, 168, 255, 255])
      192 [168, 1, 7] (by decide) (by decide)⟩

/-! ## Terminal depth: short queries against long prefixes -/

@[simp] theorem childGet_emptyNode (b : Nat) : childGet emptyNode b = none := rfl

/-- Every terminal of the trie lies at depth at least `d`: for `d > 0` the
node itself is non-terminal and each child subtree is `DeepOnly (d-1)`. -/
def DeepOnly : Nat → Node → Prop
  | 0, _ => True
  | d + 1, n => n.is_end = false ∧ ∀ b c, childGet n b = some c → DeepOnly d c

theorem deepOnly_emptyNode (d : Nat) : DeepOnly d emptyNode := by
  cases d with
  | zero => trivial
  | succ k => exact ⟨rfl, fun b c hc => by simp at hc⟩

theorem checkWalk_eq_false_of_deepOnly :
    ∀ (a : List Nat) (k : Nat) (n : Node),
      DeepOnly (k + 1) n → a.length ≤ k → checkWalk n a = false := by
  intro a
  induction a with
  | nil => intro k n _ _; rfl
  | cons h t ih =>
    intro k n hd hlen
    obtain ⟨j, rfl⟩ : ∃ j, k = j + 1 := ⟨k - 1, by simp at hlen; omega⟩
    rw [checkWalk_cons]
    cases hcg : childGet n h with
    | none => rfl
    | some c =>
      have hc := hd.2 h c hcg
      rw [Option.elim_some, hc.1, ih j c hc (by simp at hlen; omega)]
      rfl

theorem checkBytes_eq_false_of_deepOnly (k : Nat) (n : Node) (a : List Nat)
    (hd : DeepOnly (k + 1) n) (hlen : a.length ≤ k) : checkBytes n a = false := by
  unfold checkBytes
  rw [hd.1]
  simp only [Bool.false_eq_true, if_false]
  exact checkWalk_eq_false_of_deepOnly a k n hd hlen

theorem deepOnly_insertWalk_markEnd :
    ∀ (path : List Nat) (k : Nat) (n : Node) (net bc : List Nat),
      DeepOnly k n → k ≤ path.length →
      DeepOnly k (insertWalk n path (fun m => markAsEndNode m net bc)) := by
  intro path
  induction path with
  | nil =>
    intro k n net bc hd hk
    have : k = 0 := by simpa using hk
    subst this
    trivial
  | cons b rest ih =>
    intro k n net bc hd hk
    cases k with
    | zero => trivial
    | succ j =>
      simp only [insertWalk]
      refine ⟨by rw [is_end_childSet]; exact hd.1, ?_⟩
      intro b' c hc
      rw [childGet_childSet] at hc
      by_cases hb : b = b'
      · rw [if_pos hb] at hc
        injection hc with hc
        subst hc
        have hchild : DeepOnly j ((childGet n b).getD emptyNode) := by
          cases hcg : childGet n b with
          | none => exact deepOnly_emptyNode j
          | some c0 => exact hd.2 b c0 hcg
        exact ih j _ net bc hchild (by simp at hk; omega)
      · rw [if_neg hb] at hc
        exact hd.2 b' c hc

theorem deepOnly_insertWalk_expand :
    ∀ (path : List Nat) (k : Nat) (n : Node) (base cnt : Nat) (net bc : List Nat),
      DeepOnly k n → k ≤ path.length + 1 →
      DeepOnly k (insertWalk n path (fun m => expandMark m base cnt net bc)) := by
  intro path
  induction path with
  | nil =>
    intro k n base cnt net bc hd hk
    cases k with
    | zero => trivial
    | succ j =>
      have hj : j = 0 := by simpa using hk
      subst hj
      simp only [insertWalk]
      exact ⟨by rw [is_end_expandMark]; exact hd.1, fun b c _ => trivial⟩
  | cons b rest ih =>
    intro k n base cnt net bc hd hk
    cases k with
    | zero => trivial
    | succ j =>
      simp only [insertWalk]
      refine ⟨by rw [is_end_childSet]; exact hd.1, ?_⟩
      intro b' c hc
      rw [childGet_childSet] at hc
      by_cases hb : b = b'
      · rw [if_pos hb] at hc
        injection hc with hc
        subst hc
        have hchild : DeepOnly j ((childGet n b).getD emptyNode) := by
          cases hcg : childGet n b with
          | none => exact deepOnly_emptyNode j
          | some c0 => exact hd.2 b c0 hcg
        exact ih j _ base cnt net bc hchild (by simp at hk; omega)
      · rw [if_neg hb] at hc
        exact hd.2 b' c hc

/-- Inserting a prefix whose shallowest terminal depth is at least `k`
preserves `DeepOnly k`. -/
theorem deepOnly_insertCidr (T : Node) (net : List Nat) (plen : Nat) (bc : List Nat)
    (k : Nat) (hd : DeepOnly k T) (hp : 8 * (k - 1) < plen)
    (hplen : plen ≤ 8 * net.length) :
    DeepOnly k (insertCidr T net plen bc) := by
  have hp0 : plen ≠ 0 := by omega
  by_cases hrem : plen % 8 = 0
  · rw [insertCidr_rem0 T net plen bc hp0 hrem]
    apply deepOnly_insertWalk_markEnd _ k T net bc hd
    rw [List.length_take]
    omega
  · rw [insertCidr_remPos T net plen bc hp0 hrem]
    apply deepOnly_insertWalk_expand _ k T _ _ net bc hd
    rw [List.length_take]
    omega

/-- **C8 counterexample.** Claim as stated fails: a trie holding only the
IPv6 prefix `2001:db8::/32` (16-byte network, prefix length 32) answers
true for the 4-byte IPv4 address `32.1.13.184`, because the terminal sits at
depth 4, reachable by a 4-byte descent. -/
theorem ipv4_query_ipv6_trie_counterexample :
    ValidPfx ⟨[0x20, 0x01, 0x0d, 0xb8, 0, 0, 0, 0, 0, 0, 0, 0, 0, 0, 0, 0], 32⟩
    ∧ (Pfx.net ⟨[0x20, 0x01, 0x0d, 0xb8, 0, 0, 0, 0, 0, 0, 0, 0, 0, 0, 0, 0], 32⟩).length = 16
    ∧ ([0x20, 0x01, 0x0d, 0xb8] : List Nat).length = 4
    ∧ checkBytes
        (insertAll [⟨[0x20, 0x01, 0x0d, 0xb8, 0, 0, 0, 0, 0, 0, 0, 0, 0, 0, 0, 0], 32⟩])
        [0x20, 0x01, 0x0d, 0xb8] = true := by
  refine ⟨by decide, by decide, by decide, by decide⟩

/-- **C8 amended.** For every trie whose stored prefixes are all IPv6 with
prefix length greater than 32 (so every terminal lies deeper than 4 bytes),
`check` on any 4-byte IPv4 address returns false: descent exhausts the
address before reaching a terminal. -/
theorem check_ipv4_false_on_deep_ipv6_trie (ps : List Pfx) (a : List Nat)
    (hps : ∀ p ∈ ps, ValidPfx p ∧ p.net.length = 16 ∧ 32 < p.plen)
    (hlen : a.length = 4) :
    checkBytes (insertAll ps) a = false := by
  have hdeep : DeepOnly 5 (insertAll ps) := by
    unfold insertAll
    have : ∀ T : Node, DeepOnly 5 T → DeepOnly 5 (ps.foldl (fun t p =>
        insertCidr t p.net p.plen (broadcastBytes p.net p.plen)) T) := by
      induction ps with
      | nil => intro T hT; exact hT
      | cons p ps ih =>
        intro T hT
        rw [List.foldl_cons]
        obtain ⟨⟨_, hple, _⟩, hL, hgt⟩ := hps p (by simp)
        exact ih (fun q hq => hps q (by simp [hq])) _
          (deepOnly_insertCidr T p.net p.plen _ 5 hT (by omega) hple)
    exact this emptyNode (deepOnly_emptyNode 5)
  exact checkBytes_eq_false_of_deepOnly 4 _ a hdeep (by omega)

/-- Witness for the amended C8. -/
theorem check_ipv4_false_on_deep_ipv6_trie_witness :
    (∀ p ∈ [Pfx.mk [0x20, 0x01, 0x0d, 0xb8, 0, 0, 0, 0, 0, 0, 0, 0, 0, 0, 0, 0] 48],
        ValidPfx p ∧ p.net.length = 16 ∧ 32 < p.plen)
    ∧ ([1, 2, 3, 4] : List Nat).length = 4
    ∧ checkBytes
        (insertAll [Pfx.mk [0x20, 0x01, 0x0d, 0xb8, 0, 0, 0, 0, 0, 0, 0, 0, 0, 0, 0, 0] 48])
        [1, 2, 3, 4] = false :=
  ⟨by decide, by decide,
    check_ipv4_false_on_deep_ipv6_trie
      [Pfx.mk [0x20, 0x01, 0x0d, 0xb8, 0, 0, 0, 0, 0, 0, 0, 0, 0, 0, 0, 0] 48]
      [1, 2, 3, 4] (by decide) (by decide)⟩

/-! ## Abstract contents of a trie

`Represents t S` relates a trie to the set `S` of byte paths stored as
terminals, together with the structural invariants the mutators maintain:
the child dict is absent rather than empty, keys are distinct, every child
subtree holds at least one stored path (no empty subtrees), and range
metadata lives only on terminal nodes. -/

inductive Represents : Node → (List Nat → Prop) → Prop where
  | leaf (e : Bool) (rs re : Option (List Nat)) (S : List Nat → Prop)
      (hend : e = true ↔ S [])
      (hmeta : e = false → rs = none ∧ re = none)
      (hext : ∀ b s, ¬ S (b :: s)) :
      Represents (.mk e rs re none) S
  | branch (e : Bool) (rs re : Option (List Nat)) (cs : List (Nat × Node))
      (S : List Nat → Prop)
      (hend : e = true ↔ S [])
      (hmeta : e = false → rs = none ∧ re = none)
      (hne : cs ≠ [])
      (hnd : (alKeys cs).Nodup)
      (hiff : ∀ b, (∃ s, S (b :: s)) ↔ (alGet cs b).isSome)
      (hrec : ∀ b c, alGet cs b = some c → Represents c (fun s => S (b :: s))) :
      Represents (.mk e rs re (some cs)) S

theorem represents_congr {n : Node} {S S' : List Nat → Prop}
    (h : Represents n S) (hss : ∀ s, S s ↔ S' s) : Represents n S' := by
  induction h generalizing S' with
  | leaf e rs re S hend hmeta hext =>
    exact .leaf e rs re S' (hend.trans (hss [])) hmeta
      (fun b s hS' => hext b s ((hss (b :: s)).mpr hS'))
  | branch e rs re cs S hend hmeta hne hnd hiff hrec ih =>
    refine .branch e rs re cs S' (hend.trans (hss [])) hmeta hne hnd ?_ ?_
    · intro b
      exact (exists_congr (fun s => (hss (b :: s)).symm)).trans (hiff b)
    · intro b c hc
      exact ih b c hc (fun s => hss (b :: s))

theorem represents_emptyNode : Represents emptyNode (fun _ => False) :=
  .leaf false none none _ (by simp) (fun _ => ⟨rfl, rfl⟩) (fun _ _ h => h)

theorem represents_is_end_iff {t : Node} {S : List Nat → Prop}
    (h : Represents t S) : t.is_end = true ↔ S [] := by
  cases h with
  | leaf e rs re S hend _ _ => exact hend
  | branch e rs re cs S hend _ _ _ _ _ => exact hend

theorem represents_ranges {t : Node} {S : List Nat → Prop}
    (h : Represents t S) (he : t.is_end = false) :
    t.range_start = none ∧ t.range_end = none := by
  cases h with
  | leaf e rs re S _ hmeta _ => exact hmeta he
  | branch e rs re cs S _ hmeta _ _ _ _ => exact hmeta he

theorem represents_ext_iff {t : Node} {S : List Nat → Prop}
    (h : Represents t S) (b : Nat) :
    (∃ s, S (b :: s)) ↔ (childGet t b).isSome := by
  cases h with
  | leaf e rs re S _ _ hext =>
    simp only [childGet, Node.children_mk, Option.isSome_none]
    constructor
    · rintro ⟨s, hs⟩; exact absurd hs (hext b s)
    · intro h; simp at h
  | branch e rs re cs S _ _ _ _ hiff _ =>
    simpa [childGet] using hiff b

theorem represents_child {t : Node} {S : List Nat → Prop}
    (h : Represents t S) (b : Nat) (c : Node) (hc : childGet t b = some c) :
    Represents c (fun s => S (b :: s)) := by
  cases h with
  | leaf e rs re S _ _ _ => simp [childGet] at hc
  | branch e rs re cs S _ _ _ _ _ hrec =>
    exact hrec b c (by simpa [childGet] using hc)

theorem represents_childless_no_ext {t : Node} {S : List Nat → Prop}
    (h : Represents t S) (hcl : t.childless = true) :
    ∀ b s, ¬ S (b :: s) := by
  cases h with
  | leaf e rs re S _ _ hext => exact hext
  | branch e rs re cs S _ _ hne _ _ _ =>
    exfalso
    simp only [Node.childless, Node.children_mk] at hcl
    exact hne (List.isEmpty_iff.mp hcl)

theorem represents_ext_of_not_childless {t : Node} {S : List Nat → Prop}
    (h : Represents t S) (hcl : t.childless = false) :
    ∃ b s, S (b :: s) := by
  cases h with
  | leaf e rs re S _ _ _ => simp [Node.childless] at hcl
  | branch e rs re cs S _ _ hne _ hiff _ =>
    obtain ⟨⟨k, v⟩, rest, rfl⟩ : ∃ kv rest, cs = kv :: rest := by
      cases cs with
      | nil => exact absurd rfl hne
      | cons kv rest => exact ⟨kv, rest, rfl⟩
    have : (alGet ((k, v) :: rest) k).isSome := by simp [alGet]
    obtain ⟨s, hs⟩ := (hiff k).mpr this
    exact ⟨k, s, hs⟩

/-- A trie representing the empty set is the fresh root: non-terminal, no
children. -/
theorem represents_empty_final {t : Node}
    (h : Represents t (fun _ => False)) :
    t.is_end = false ∧ t.children = none := by
  cases h with
  | leaf e rs re S hend _ _ =>
    refine ⟨?_, rfl⟩
    cases he : e
    · rfl
    · exact absurd (hend.mp he) id
  | branch e rs re cs S hend _ hne _ hiff _ =>
    exfalso
    obtain ⟨⟨k, v⟩, rest, rfl⟩ : ∃ kv rest, cs = kv :: rest := by
      cases cs with
      | nil => exact absurd rfl hne
      | cons kv rest => exact ⟨kv, rest, rfl⟩
    have : (alGet ((k, v) :: rest) k).isSome := by simp [alGet]
    obtain ⟨s, hs⟩ := (hiff k).mpr this
    exact hs

/-- Storing a child with a nonempty subtree keeps the representation,
updating the set at the slot `b`. -/
theorem represents_childSet {t : Node} {S : List Nat → Prop} (b : Nat) {X : Node}
    {T' : List Nat → Prop} (S' : List Nat → Prop)
    (hrep : Represents t S) (hX : Represents X T') (hTne : ∃ s, T' s)
    (h0 : S' [] ↔ S [])
    (hb : ∀ s, S' (b :: s) ↔ T' s)
    (hother : ∀ b' s, b' ≠ b → (S' (b' :: s) ↔ S (b' :: s))) :
    Represents (childSet t b X) S' := by
  cases hrep with
  | leaf e rs re S hend hmeta hext =>
    simp only [childSet, Node.children_mk]
    refine .branch e rs re [(b, X)] S' (hend.trans h0.symm) hmeta (by simp)
      (by simp [alKeys]) ?_ ?_
    · intro b'
      by_cases hbb : b = b'
      · subst hbb
        simp only [alGet, eq_self_iff_true, if_true, Option.isSome_some, iff_true]
        obtain ⟨s, hs⟩ := hTne
        exact ⟨s, (hb s).mpr hs⟩
      · have hbb' : b' ≠ b := fun h => hbb h.symm
        simp only [alGet, if_neg hbb, Option.isSome_none]
        constructor
        · rintro ⟨s, hs⟩
          exact absurd ((hother b' s hbb').mp hs) (hext b' s)
        · intro h; simp at h
    · intro b' c hc
      simp only [alGet, alGet_nil] at hc
      by_cases hbb : b = b'
      · rw [if_pos hbb] at hc
        injection hc with hc
        subst hc
        subst hbb
        exact represents_congr hX (fun s => (hb s).symm)
      · rw [if_neg hbb] at hc
        exact absurd hc (by simp)
  | branch e rs re cs S hend hmeta hne hnd hiff hrec =>
    simp only [childSet, Node.children_mk]
    refine .branch e rs re (alSet cs b X) S' (hend.trans h0.symm) hmeta
      (alSet_nonempty cs b X) (alKeys_alSet_nodup cs b X hnd) ?_ ?_
    · intro b'
      rw [alGet_alSet]
      by_cases hbb : b = b'
      · subst hbb
        simp only [eq_self_iff_true, if_true, Option.isSome_some, iff_true]
        obtain ⟨s, hs⟩ := hTne
        exact ⟨s, (hb s).mpr hs⟩
      · have hbb' : b' ≠ b := fun h => hbb h.symm
        rw [if_neg hbb]
        exact (exists_congr (fun s => hother b' s hbb')).trans (hiff b')
    · intro b' c hc
      rw [alGet_alSet] at hc
      by_cases hbb : b = b'
      · rw [if_pos hbb] at hc
        injection hc with hc
        subst hc
        subst hbb
        exact represents_congr hX (fun s => (hb s).symm)
      · rw [if_neg hbb] at hc
        have hbb' : b' ≠ b := fun h => hbb h.symm
        exact represents_congr (hrec b' c hc) (fun s => (hother b' s hbb').symm)

/-- Deleting the child at slot `b` keeps the representation when the target
set has no paths through `b`. -/
theorem represents_childDel {t : Node} {S : List Nat → Prop} (b : Nat)
    (S' : List Nat → Prop)
    (hrep : Represents t S)
    (h0 : S' [] ↔ S [])
    (hb : ∀ s, ¬ S' (b :: s))
    (hother : ∀ b' s, b' ≠ b → (S' (b' :: s) ↔ S (b' :: s))) :
    Represents (childDel t b) S' := by
  cases hrep with
  | leaf e rs re S hend hmeta hext =>
    simp only [childDel, Node.children_mk]
    refine .leaf e rs re S' (hend.trans h0.symm) hmeta ?_
    intro b' s hs
    by_cases hbb : b' = b
    · subst hbb
      exact hb s hs
    · exact hext b' s ((hother b' s hbb).mp hs)
  | branch e rs re cs S hend hmeta hne hnd hiff hrec =>
    simp only [childDel, Node.children_mk]
    cases hemp : (alDel cs b).isEmpty
    · simp only [Bool.false_eq_true, if_false]
      refine .branch e rs re (alDel cs b) S' (hend.trans h0.symm) hmeta
        (fun h => by simp [h] at hemp) (alKeys_alDel_nodup cs b hnd) ?_ ?_
      · intro b'
        rw [alGet_alDel cs b b' hnd]
        by_cases hbb : b = b'
        · subst hbb
          rw [if_pos rfl]
          simp only [Option.isSome_none]
          constructor
          · rintro ⟨s, hs⟩; exact absurd hs (hb s)
          · intro h; simp at h
        · rw [if_neg hbb]
          have hbb' : b' ≠ b := fun h => hbb h.symm
          exact (exists_congr (fun s => hother b' s hbb')).trans (hiff b')
      · intro b' c hc
        rw [alGet_alDel cs b b' hnd] at hc
        by_cases hbb : b = b'
        · rw [if_pos hbb] at hc
          exact absurd hc (by simp)
        · rw [if_neg hbb] at hc
          have hbb' : b' ≠ b := fun h => hbb h.symm
          exact represents_congr (hrec b' c hc) (fun s => (hother b' s hbb').symm)
    · simp only [if_true]
      have hdel : alDel cs b = [] := List.isEmpty_iff.mp hemp
      refine .leaf e rs re S' (hend.trans h0.symm) hmeta ?_
      intro b' s hs
      by_cases hbb : b' = b
      · subst hbb
        exact hb s hs
      · have : alGet cs b' = none := by
          have := alGet_alDel cs b b' hnd
          rw [hdel, if_neg (fun h => hbb h.symm)] at this
          exact this.symm
        have hnone : ¬ (alGet cs b').isSome := by simp [this]
        exact hnone ((hiff b').mp ⟨s, (hother b' s hbb).mp hs⟩)

/-- Marking a node terminal adds the empty path to its set. -/
theorem represents_markAsEndNode {t : Node} {S : List Nat → Prop}
    (hrep : Represents t S) (net bc : List Nat) :
    Represents (markAsEndNode t net bc) (fun s => S s ∨ s = []) := by
  cases hrep with
  | leaf e rs re S hend hmeta hext =>
    simp only [markAsEndNode, Node.children_mk]
    refine .leaf true (some net) (some bc) _ (by simp) ?_ ?_
    · intro h; exact absurd h (by decide)
    · intro b s h
      rcases h with h | h
      · exact hext b s h
      · exact (List.cons_ne_nil b s) h
  | branch e rs re cs S hend hmeta hne hnd hiff hrec =>
    simp only [markAsEndNode, Node.children_mk]
    refine .branch true (some net) (some bc) cs _ (by simp) ?_ hne hnd ?_ ?_
    · intro h; exact absurd h (by decide)
    · intro b
      refine Iff.trans ?_ (hiff b)
      refine exists_congr (fun s => ?_)
      constructor
      · rintro (h | h)
        · exact h
        · exact absurd h (List.cons_ne_nil b s)
      · exact Or.inl
    · intro b c hc
      refine represents_congr (hrec b c hc) (fun s => ?_)
      constructor
      · exact Or.inl
      · rintro (h | h)
        · exact h
        · exact absurd h (List.cons_ne_nil b s)

/-- The full-byte descent of `_insert_cidr` adds exactly the inserted path
to the represented set. -/
theorem represents_insertWalk_markEnd :
    ∀ (path : List Nat) (t : Node) (S : List Nat → Prop) (net bc : List Nat),
      Represents t S →
      Represents (insertWalk t path (fun m => markAsEndNode m net bc))
        (fun s => S s ∨ s = path) := by
  intro path
  induction path with
  | nil =>
    intro t S net bc hrep
    simpa only [insertWalk] using represents_markAsEndNode hrep net bc
  | cons b rest ih =>
    intro t S net bc hrep
    simp only [insertWalk]
    cases hcg : childGet t b with
    | none =>
      have hnoext : ∀ s, ¬ S (b :: s) := by
        intro s hs
        have := (represents_ext_iff hrep b).mp ⟨s, hs⟩
        rw [hcg] at this
        simp at this
      simp only [Option.getD_none]
      refine represents_childSet b _ hrep
        (ih emptyNode (fun _ => False) net bc represents_emptyNode)
        ⟨rest, Or.inr rfl⟩ ?_ ?_ ?_
      · constructor
        · rintro (h | h)
          · exact h
          · exact absurd h.symm (List.cons_ne_nil b rest)
        · exact Or.inl
      · intro s
        constructor
        · rintro (h | h)
          · exact absurd h (hnoext s)
          · exact Or.inr (by injection h)
        · rintro (h | h)
          · exact absurd h id
          · exact Or.inr (by rw [h])
      · intro b' s hbb
        constructor
        · rintro (h | h)
          · exact h
          · exact absurd (by injection h) hbb
        · exact Or.inl
    | some c =>
      simp only [Option.getD_some]
      refine represents_childSet b _ hrep
        (ih c (fun s => S (b :: s)) net bc (represents_child hrep b c hcg))
        ⟨rest, Or.inr rfl⟩ ?_ ?_ ?_
      · constructor
        · rintro (h | h)
          · exact h
          · exact absurd h.symm (List.cons_ne_nil b rest)
        · exact Or.inl
      · intro s
        constructor
        · rintro (h | h)
          · exact Or.inl h
          · exact Or.inr (by injection h)
        · rintro (h | h)
          · exact Or.inl h
          · exact Or.inr (by rw [h])
      · intro b' s hbb
        constructor
        · rintro (h | h)
          · exact h
          · exact absurd (by injection h) hbb
        · exact Or.inl

/-- A full-byte `_insert_cidr` adds exactly its path (the first
`prefix_len / 8` network bytes; `/0` adds the empty path at the root). -/
theorem represents_insertCidr (t : Node) (S : List Nat → Prop) (net : List Nat)
    (plen : Nat) (bc : List Nat) (hrep : Represents t S) (hfull : plen % 8 = 0) :
    Represents (insertCidr t net plen bc)
      (fun s => S s ∨ s = net.take (plen / 8)) := by
  by_cases hp0 : plen = 0
  · subst hp0
    rw [insertCidr_zero]
    simp only [Nat.zero_div, List.take_zero]
    have := represents_markAsEndNode hrep net bc
    cases t with
    | mk e rs re ch =>
      simpa [markAsEndNode] using this
  · rw [insertCidr_rem0 t net plen bc hp0 hfull]
    exact represents_insertWalk_markEnd (net.take (plen / 8)) t S net bc hrep

/-! ## Removal against the abstract contents -/

theorem childless_removeEndNode (c : Node) :
    (removeEndNode c).childless = c.childless := by
  cases c; rfl

theorem represents_removeEndNode {c : Node} {T : List Nat → Prop}
    (hc : Represents c T) :
    Represents (removeEndNode c) (fun s => T s ∧ s ≠ []) := by
  cases hc with
  | leaf e rs re T hend hmeta hext =>
    simp only [removeEndNode, Node.children_mk]
    refine .leaf false none none _ (by simp) (fun _ => ⟨rfl, rfl⟩) ?_
    intro b s h
    exact hext b s h.1
  | branch e rs re cs T hend hmeta hne hnd hiff hrec =>
    simp only [removeEndNode, Node.children_mk]
    refine .branch false none none cs _ (by simp) (fun _ => ⟨rfl, rfl⟩) hne hnd ?_ ?_
    · intro b
      refine Iff.trans ?_ (hiff b)
      exact exists_congr (fun s =>
        ⟨fun h => h.1, fun h => ⟨h, List.cons_ne_nil b s⟩⟩)
    · intro b c hcg
      exact represents_congr (hrec b c hcg)
        (fun s => ⟨fun h => ⟨h, List.cons_ne_nil b s⟩, fun h => h.1⟩)

theorem represents_nonempty_of_not_prunable {c : Node} {T : List Nat → Prop}
    (hc : Represents c T) (h : ¬ (c.is_end = false ∧ c.childless = true)) :
    ∃ s, T s := by
  cases he : c.is_end
  · have hcl : c.childless = false := by
      cases hcl : c.childless
      · rfl
      · exact absurd ⟨he, hcl⟩ h
    obtain ⟨b, s, hs⟩ := represents_ext_of_not_childless hc hcl
    exact ⟨b :: s, hs⟩
  · exact ⟨[], (represents_is_end_iff hc).mp he⟩

theorem removeWalk_single_none (t : Node) (b : Nat) (h : childGet t b = none) :
    removeWalk t [b] = t := by
  unfold removeWalk
  rw [h]

theorem removeWalk_single_some (t : Node) (b : Nat) (c : Node)
    (h : childGet t b = some c) :
    removeWalk t [b] =
      (if (removeEndNode c).childless = true then childDel t b
       else childSet t b (removeEndNode c)) := by
  unfold removeWalk
  rw [h]

theorem removeWalk_cons2_none (t : Node) (b r0 : Nat) (rest' : List Nat)
    (h : childGet t b = none) :
    removeWalk t (b :: r0 :: rest') = t := by
  unfold removeWalk
  rw [h]

theorem removeWalk_cons2_some (t : Node) (b r0 : Nat) (rest' : List Nat) (c : Node)
    (h : childGet t b = some c) :
    removeWalk t (b :: r0 :: rest') =
      (if (removeWalk c (r0 :: rest')).is_end = false
          ∧ (removeWalk c (r0 :: rest')).childless = true
       then childDel t b
       else childSet t b (removeWalk c (r0 :: rest'))) := by
  conv_lhs => unfold removeWalk
  rw [h]

/-- `remove`'s traverse-unmark-prune deletes exactly the removed path from
the represented set. -/
theorem represents_removeWalk :
    ∀ (path : List Nat) (t : Node) (S : List Nat → Prop),
      path ≠ [] → Represents t S →
      Represents (removeWalk t path) (fun s => S s ∧ s ≠ path) := by
  intro path
  induction path with
  | nil => intro t S h _; exact absurd rfl h
  | cons b rest ih =>
    intro t S _ hrep
    cases rest with
    | nil =>
      -- final edge: unmark the child at b, prune if childless
      cases hcg : childGet t b with
      | none =>
        rw [removeWalk_single_none t b hcg]
        refine represents_congr hrep (fun s => ?_)
        constructor
        · intro hs
          refine ⟨hs, ?_⟩
          intro he
          subst he
          have := (represents_ext_iff hrep b).mp ⟨[], hs⟩
          rw [hcg] at this
          simp at this
        · exact fun h => h.1
      | some c =>
        rw [removeWalk_single_some t b c hcg]
        have hc := represents_child hrep b c hcg
        by_cases hcl : (removeEndNode c).childless = true
        · rw [if_pos hcl]
          have hnoext := represents_childless_no_ext hc
            (by rw [← childless_removeEndNode]; exact hcl)
          refine represents_childDel b _ hrep ?_ ?_ ?_
          · exact ⟨fun h => h.1, fun h => ⟨h, by simp⟩⟩
          · intro s hs
            cases s with
            | nil => exact hs.2 rfl
            | cons x s' => exact hnoext x s' hs.1
          · intro b' s hbb
            exact ⟨fun h => h.1, fun h => ⟨h, by simp [hbb]⟩⟩
        · rw [if_neg hcl]
          have hc' := represents_removeEndNode hc
          have hclc : c.childless = false := by
            rw [← childless_removeEndNode]
            cases h : (removeEndNode c).childless
            · rfl
            · exact absurd h hcl
          obtain ⟨b', s', hs'⟩ := represents_ext_of_not_childless hc hclc
          refine represents_childSet b _ hrep hc'
            ⟨b' :: s', hs', List.cons_ne_nil b' s'⟩ ?_ ?_ ?_
          · exact ⟨fun h => h.1, fun h => ⟨h, by simp⟩⟩
          · intro s
            constructor
            · intro h
              exact ⟨h.1, fun he => h.2 (by rw [he])⟩
            · intro h
              exact ⟨h.1, fun he => h.2 (by injection he)⟩
          · intro b' s hbb
            exact ⟨fun h => h.1, fun h => ⟨h, by simp [hbb]⟩⟩
    | cons r0 rest' =>
      cases hcg : childGet t b with
      | none =>
        rw [removeWalk_cons2_none t b r0 rest' hcg]
        refine represents_congr hrep (fun s => ?_)
        constructor
        · intro hs
          refine ⟨hs, ?_⟩
          intro he
          subst he
          have := (represents_ext_iff hrep b).mp ⟨r0 :: rest', hs⟩
          rw [hcg] at this
          simp at this
        · exact fun h => h.1
      | some c =>
        rw [removeWalk_cons2_some t b r0 rest' c hcg]
        have hc := represents_child hrep b c hcg
        have hc' := ih c _ (List.cons_ne_nil r0 rest') hc
        by_cases hpr : (removeWalk c (r0 :: rest')).is_end = false
            ∧ (removeWalk c (r0 :: rest')).childless = true
        · rw [if_pos hpr]
          have hend' : ¬ (fun s => S (b :: s) ∧ s ≠ r0 :: rest') [] := by
            intro h
            have := (represents_is_end_iff hc').mpr h
            rw [hpr.1] at this
            exact absurd this (by decide)
          have hnoext := represents_childless_no_ext hc' hpr.2
          refine represents_childDel b _ hrep ?_ ?_ ?_
          · exact ⟨fun h => h.1, fun h => ⟨h, by simp⟩⟩
          · intro s hs
            cases s with
            | nil => exact hend' ⟨hs.1, by simp⟩
            | cons x s' =>
              by_cases hsr : x :: s' = r0 :: rest'
              · exact hs.2 (by rw [hsr])
              · exact hnoext x s' ⟨hs.1, hsr⟩
          · intro b' s hbb
            exact ⟨fun h => h.1, fun h => ⟨h, by simp [hbb]⟩⟩
        · rw [if_neg hpr]
          obtain ⟨s0, hs0⟩ := represents_nonempty_of_not_prunable hc' hpr
          refine represents_childSet b _ hrep hc' ⟨s0, hs0⟩ ?_ ?_ ?_
          · exact ⟨fun h => h.1, fun h => ⟨h, by simp⟩⟩
          · intro s
            constructor
            · intro h
              exact ⟨h.1, fun he => h.2 (by rw [he])⟩
            · intro h
              exact ⟨h.1, fun he => h.2 (by injection he)⟩
          · intro b' s hbb
            exact ⟨fun h => h.1, fun h => ⟨h, by simp [hbb]⟩⟩

theorem removeCidr_zero (root : Node) (net : List Nat) :
    removeCidr root net 0 = emptyNode := by
  unfold removeCidr
  rw [if_pos rfl]

theorem removeCidr_rem0 (root : Node) (net : List Nat) (plen : Nat)
    (hp : plen ≠ 0) (hrem : plen % 8 = 0) :
    removeCidr root net plen = removeWalk root (net.take (plen / 8)) := by
  unfold removeCidr
  rw [if_neg hp]
  simp only [shiftRight3_eq, land7_eq, hrem, eq_self_iff_true, if_true]

/-- Full-byte `remove` deletes exactly its path from the represented set. -/
theorem represents_removeCidr (t : Node) (S : List Nat → Prop) (net : List Nat)
    (plen : Nat) (hrep : Represents t S) (hfull : plen % 8 = 0) (hp0 : plen ≠ 0)
    (hplen : plen ≤ 8 * net.length) :
    Represents (removeCidr t net plen) (fun s => S s ∧ s ≠ net.take (plen / 8)) := by
  rw [removeCidr_rem0 t net plen hp0 hfull]
  apply represents_removeWalk _ t S _ hrep
  rw [Ne, List.take_eq_nil_iff]
  push_neg
  constructor
  · omega
  · intro h
    rw [h] at hplen
    simp at hplen
    omega

/-! ## Sequences of inserts and removes -/

/-- The byte path at which a full-byte prefix is stored and removed. -/
def pathOf (p : Pfx) : List Nat := p.net.take (p.plen / 8)

/-- Abstract effect of `remove` on the stored set: `/0` rebuilds the root
(dropping everything); otherwise the prefix's own path is deleted. -/
def Srem (q : Pfx) (S : List Nat → Prop) : List Nat → Prop :=
  fun s => if q.plen = 0 then False else (S s ∧ s ≠ pathOf q)

theorem represents_removeCidr_all {t : Node} {S : List Nat → Prop} (q : Pfx)
    (hrep : Represents t S) (hfull : q.plen % 8 = 0)
    (hval : q.plen ≤ 8 * q.net.length) :
    Represents (removeCidr t q.net q.plen) (Srem q S) := by
  by_cases hp0 : q.plen = 0
  · rw [hp0, removeCidr_zero]
    refine represents_congr represents_emptyNode (fun s => ?_)
    simp [Srem, hp0]
  · refine represents_congr
      (represents_removeCidr t S q.net q.plen hrep hfull hp0 hval) (fun s => ?_)
    simp [Srem, hp0, pathOf]

theorem represents_foldl_remove (Q : List Pfx) :
    ∀ (T : Node) (S : List Nat → Prop), Represents T S →
      (∀ q ∈ Q, q.plen % 8 = 0 ∧ q.plen ≤ 8 * q.net.length) →
      Represents (Q.foldl (fun t q => removeCidr t q.net q.plen) T)
        (Q.foldl (fun S q => Srem q S) S) := by
  induction Q with
  | nil => intro T S h _; exact h
  | cons q Q ih =>
    intro T S h hq
    rw [List.foldl_cons, List.foldl_cons]
    exact ih _ _
      (represents_removeCidr_all q h (hq q (by simp)).1 (hq q (by simp)).2)
      (fun r hr => hq r (by simp [hr]))

theorem foldl_Srem_mono (Q : List Pfx) :
    ∀ (S : List Nat → Prop) (s : List Nat),
      (Q.foldl (fun S q => Srem q S) S) s → S s := by
  induction Q with
  | nil => intro S s h; exact h
  | cons q Q ih =>
    intro S s h
    rw [List.foldl_cons] at h
    have h2 := ih _ s h
    simp only [Srem] at h2
    by_cases hp : q.plen = 0
    · rw [if_pos hp] at h2
      exact absurd h2 id
    · rw [if_neg hp] at h2
      exact h2.1

theorem foldl_Srem_kills (Q : List Pfx) :
    ∀ (S : List Nat → Prop) (q : Pfx), q ∈ Q →
      ¬ (Q.foldl (fun S q => Srem q S) S) (pathOf q) := by
  induction Q with
  | nil => intro S q h; simp at h
  | cons q0 Q ih =>
    intro S q hq hfin
    rw [List.foldl_cons] at hfin
    rcases List.mem_cons.mp hq with rfl | hq'
    · have h2 := foldl_Srem_mono Q _ _ hfin
      simp only [Srem] at h2
      by_cases hp : q.plen = 0
      · rw [if_pos hp] at h2; exact h2
      · rw [if_neg hp] at h2; exact h2.2 rfl
    · exact ih _ q hq' hfin

theorem represents_insertAllFold (P : List Pfx) :
    ∀ (T : Node) (S : List Nat → Prop), Represents T S →
      (∀ p ∈ P, p.plen % 8 = 0) →
      Represents (P.foldl (fun t p => insertCidr t p.net p.plen
        (broadcastBytes p.net p.plen)) T)
        (P.foldl (fun S p => fun s => S s ∨ s = pathOf p) S) := by
  induction P with
  | nil => intro T S h _; exact h
  | cons p P ih =>
    intro T S h hp
    rw [List.foldl_cons, List.foldl_cons]
    exact ih _ _
      (represents_insertCidr T S p.net p.plen _ h (hp p (by simp)))
      (fun r hr => hp r (by simp [hr]))

theorem foldl_Sins_sub (P : List Pfx) :
    ∀ (S : List Nat → Prop) (s : List Nat),
      (P.foldl (fun S p => fun s => S s ∨ s = pathOf p) S) s →
      S s ∨ ∃ p ∈ P, s = pathOf p := by
  induction P with
  | nil => intro S s h; exact Or.inl h
  | cons p P ih =>
    intro S s h
    rw [List.foldl_cons] at h
    rcases ih _ s h with h' | ⟨p', hp', he⟩
    · rcases h' with h' | h'
      · exact Or.inl h'
      · exact Or.inr ⟨p, by simp, h'⟩
    · exact Or.inr ⟨p', by simp [hp'], he⟩

/-- **C5 counterexample.** The claim as stated fails for a partial-byte
prefix: inserting `172.16.0.0/12` and then removing exactly it leaves the
sibling terminals of the expansion in place — the root still has
children. -/
theorem prune_counterexample :
    ValidPfx ⟨[172, 16, 0, 0], 12⟩
    ∧ (([Pfx.mk [172, 16, 0, 0] 12].foldl (fun t q => removeCidr t q.net q.plen)
        (insertAll [Pfx.mk [172, 16, 0, 0] 12])).children.isNone = false) := by
  refine ⟨by decide, by decide⟩

/-- **C5 amended.** After any sequence of inserts of full-byte prefixes
(length a multiple of 8, `/0` included) followed by removes of exactly the
same prefixes, the trie has no non-root nodes: the root is non-terminal and
its child dict is absent. -/
theorem insert_then_remove_all_prunes (P Q : List Pfx)
    (hP : ∀ p ∈ P, ValidPfx p ∧ p.plen % 8 = 0)
    (hQ : ∀ q ∈ Q, ValidPfx q ∧ q.plen % 8 = 0)
    (hPQ : ∀ p ∈ P, p ∈ Q) (_hQP : ∀ q ∈ Q, q ∈ P) :
    (Q.foldl (fun t q => removeCidr t q.net q.plen) (insertAll P)).is_end = false
    ∧ (Q.foldl (fun t q => removeCidr t q.net q.plen) (insertAll P)).children
        = none := by
  unfold insertAll
  have hins := represents_insertAllFold P emptyNode (fun _ => False)
    represents_emptyNode (fun p hp => (hP p hp).2)
  have hrem := represents_foldl_remove Q _ _ hins
    (fun q hq => ⟨(hQ q hq).2, ((hQ q hq).1).2.1⟩)
  apply represents_empty_final
  refine represents_congr hrem (fun s => ?_)
  constructor
  · intro h
    have hsub := foldl_Srem_mono Q _ s h
    rcases foldl_Sins_sub P _ s hsub with h' | ⟨p, hp, rfl⟩
    · exact h'
    · exact foldl_Srem_kills Q _ p (hPQ p hp) h
  · intro h
    exact absurd h id

/-- Witness for the amended C5 with a nested pair of prefixes removed in
insertion order. -/
theorem insert_then_remove_all_prunes_witness :
    (∀ p ∈ [Pfx.mk [10, 0, 0, 0] 8, Pfx.mk [10, 10, 0, 0] 16],
        ValidPfx p ∧ p.plen % 8 = 0)
    ∧ (([Pfx.mk [10, 0, 0, 0] 8, Pfx.mk [10, 10, 0, 0] 16].foldl
          (fun t q => removeCidr t q.net q.plen)
          (insertAll [Pfx.mk [10, 0, 0, 0] 8, Pfx.mk [10, 10, 0, 0] 16])).is_end
        = false
      ∧ ([Pfx.mk [10, 0, 0, 0] 8, Pfx.mk [10, 10, 0, 0] 16].foldl
          (fun t q => removeCidr t q.net q.plen)
          (insertAll [Pfx.mk [10, 0, 0, 0] 8, Pfx.mk [10, 10, 0, 0] 16])).children
        = none) :=
  ⟨by decide,
    insert_then_remove_all_prunes
      [Pfx.mk [10, 0, 0, 0] 8, Pfx.mk [10, 10, 0, 0] 16]
      [Pfx.mk [10, 0, 0, 0] 8, Pfx.mk [10, 10, 0, 0] 16]
      (by decide) (by decide) (fun p hp => hp) (fun q hq => hq)⟩

/-! ## Idempotence of insert, and removal of absent prefixes -/

theorem childSet_self (n : Node) (b : Nat) (c : Node) (hc : childGet n b = some c) :
    childSet n b c = n := by
  cases n with
  | mk e rs re ch =>
    cases ch with
    | none => simp [childGet] at hc
    | some cs =>
      simp only [childGet, Node.children_mk] at hc
      show Node.mk e rs re (some (alSet cs b c)) = Node.mk e rs re (some cs)
      rw [alSet_self cs b c hc]

theorem childSet_childSet (n : Node) (b : Nat) (v w : Node) :
    childSet (childSet n b v) b w = childSet n b w := by
  cases n with
  | mk e rs re ch =>
    cases ch with
    | none =>
      show Node.mk e rs re (some (alSet [(b, v)] b w)) = Node.mk e rs re (some [(b, w)])
      simp [alSet]
    | some cs =>
      show Node.mk e rs re (some (alSet (alSet cs b v) b w))
        = Node.mk e rs re (some (alSet cs b w))
      rw [alSet_alSet]

theorem removeEndNode_eq_self (c : Node) (he : c.is_end = false)
    (h1 : c.range_start = none) (h2 : c.range_end = none) :
    removeEndNode c = c := by
  cases c with
  | mk e rs re ch =>
    simp only [Node.is_end_mk] at he
    simp only [Node.range_start_mk] at h1
    simp only [Node.range_end_mk] at h2
    subst he h1 h2
    rfl

/-- `remove` of a path not stored in the trie is the identity. -/
theorem removeWalk_noop :
    ∀ (path : List Nat) (t : Node) (S : List Nat → Prop),
      path ≠ [] → Represents t S → ¬ S path →
      removeWalk t path = t := by
  intro path
  induction path with
  | nil => intro t S h _ _; exact absurd rfl h
  | cons b rest ih =>
    intro t S _ hrep habs
    cases rest with
    | nil =>
      cases hcg : childGet t b with
      | none => exact removeWalk_single_none t b hcg
      | some c =>
        rw [removeWalk_single_some t b c hcg]
        have hc := represents_child hrep b c hcg
        have hce : c.is_end = false := by
          cases he : c.is_end
          · rfl
          · exact absurd ((represents_is_end_iff hc).mp he) habs
        obtain ⟨hr1, hr2⟩ := represents_ranges hc hce
        rw [removeEndNode_eq_self c hce hr1 hr2]
        cases hcl : c.childless
        · rw [if_neg (by simp [hcl])]
          exact childSet_self t b c hcg
        · exfalso
          have hnoext := represents_childless_no_ext hc hcl
          have hsome : (childGet t b).isSome := by simp [hcg]
          obtain ⟨s, hs⟩ := (represents_ext_iff hrep b).mpr hsome
          cases s with
          | nil => exact habs hs
          | cons x s' => exact hnoext x s' hs
    | cons r0 rest' =>
      cases hcg : childGet t b with
      | none => exact removeWalk_cons2_none t b r0 rest' hcg
      | some c =>
        rw [removeWalk_cons2_some t b r0 rest' c hcg]
        have hc := represents_child hrep b c hcg
        have hIH : removeWalk c (r0 :: rest') = c :=
          ih c _ (List.cons_ne_nil r0 rest') hc (fun h => habs h)
        rw [hIH]
        by_cases hpr : c.is_end = false ∧ c.childless = true
        · exfalso
          have hnoext := represents_childless_no_ext hc hpr.2
          have hsome : (childGet t b).isSome := by simp [hcg]
          obtain ⟨s, hs⟩ := (represents_ext_iff hrep b).mpr hsome
          cases s with
          | nil =>
            have := (represents_is_end_iff hc).mpr hs
            rw [hpr.1] at this
            exact absurd this (by decide)
          | cons x s' => exact hnoext x s' hs
        · rw [if_neg hpr]
          exact childSet_self t b c hcg

/-- Removing a full-byte prefix whose path is not stored leaves the trie
exactly unchanged. -/
theorem remove_absent_noop {u : Node} {S : List Nat → Prop} (q : Pfx)
    (hrep : Represents u S) (hfull : q.plen % 8 = 0) (hp0 : q.plen ≠ 0)
    (hval : q.plen ≤ 8 * q.net.length) (habs : ¬ S (pathOf q)) :
    removeCidr u q.net q.plen = u := by
  rw [removeCidr_rem0 u q.net q.plen hp0 hfull]
  apply removeWalk_noop _ u S ?_ hrep habs
  unfold pathOf
  rw [Ne, List.take_eq_nil_iff]
  push_neg
  constructor
  · omega
  · intro h
    rw [h] at hval
    simp at hval
    omega

theorem insertWalk_cons (n : Node) (b : Nat) (rest : List Nat) (fin : Node → Node) :
    insertWalk n (b :: rest) fin
      = childSet n b (insertWalk ((childGet n b).getD emptyNode) rest fin) := rfl

/-- Re-running an idempotent final action over an already-walked path is the
identity. -/
theorem insertWalk_idem (fin : Node → Node) (hfin : ∀ m, fin (fin m) = fin m) :
    ∀ (path : List Nat) (n : Node),
      insertWalk (insertWalk n path fin) path fin = insertWalk n path fin := by
  intro path
  induction path with
  | nil =>
    intro n
    simp only [insertWalk]
    exact hfin n
  | cons b rest ih =>
    intro n
    rw [insertWalk_cons, insertWalk_cons, childGet_childSet, if_pos rfl,
      Option.getD_some, ih, childSet_childSet]

theorem markAsEndNode_idem (m : Node) (net bc : List Nat) :
    markAsEndNode (markAsEndNode m net bc) net bc = markAsEndNode m net bc := by
  simp [markAsEndNode]

theorem expandMark_childGet_marked (n : Node) (base cnt : Nat) (net bc : List Nat)
    (h : Nat) (hmem : ∃ o, o < cnt ∧ h = base ||| o) :
    ∃ x, childGet (expandMark n base cnt net bc) h = some (markAsEndNode x net bc) := by
  unfold expandMark
  induction cnt generalizing n with
  | zero => obtain ⟨o, ho, _⟩ := hmem; omega
  | succ k ih =>
    rw [List.range_succ, List.foldl_append, List.foldl_cons, List.foldl_nil]
    obtain ⟨o, ho, heq⟩ := hmem
    by_cases hk : h = base ||| k
    · refine ⟨?_, ?_⟩
      case _ => exact (childGet ((List.range k).foldl
        (fun m offset =>
          childSet m (base ||| offset)
            (markAsEndNode ((childGet m (base ||| offset)).getD emptyNode) net bc)) n)
        (base ||| k)).getD emptyNode
      case _ => rw [childGet_childSet, if_pos hk.symm]
    · have ho' : o < k := by
        rcases Nat.lt_succ_iff_lt_or_eq.mp ho with h' | h'
        · exact h'
        · exact absurd (h' ▸ heq) hk
      obtain ⟨x, hx⟩ := ih n ⟨o, ho', heq⟩
      refine ⟨x, ?_⟩
      rw [childGet_childSet, if_neg (fun he => hk he.symm)]
      exact hx

theorem expandMark_idem (n : Node) (base cnt : Nat) (net bc : List Nat) :
    expandMark (expandMark n base cnt net bc) base cnt net bc
      = expandMark n base cnt net bc := by
  have hstep : ∀ (E : Node) (k : Nat),
      (∃ x, childGet E k = some (markAsEndNode x net bc)) →
      childSet E k (markAsEndNode ((childGet E k).getD emptyNode) net bc) = E := by
    rintro E k ⟨x, hx⟩
    rw [hx, Option.getD_some, markAsEndNode_idem]
    exact childSet_self E k _ hx
  have hfold : ∀ (l : List Nat) (E : Node),
      (∀ o ∈ l, ∃ x, childGet E (base ||| o) = some (markAsEndNode x net bc)) →
      l.foldl (fun m offset =>
        childSet m (base ||| offset)
          (markAsEndNode ((childGet m (base ||| offset)).getD emptyNode) net bc)) E
        = E := by
    intro l
    induction l with
    | nil => intro E _; rfl
    | cons o l' ihl =>
      intro E hE
      rw [List.foldl_cons, hstep E (base ||| o) (hE o (by simp))]
      exact ihl E (fun o' ho' => hE o' (by simp [ho']))
  conv_lhs => rw [expandMark]
  exact hfold (List.range cnt) _ (fun o ho =>
    expandMark_childGet_marked n base cnt net bc (base ||| o)
      ⟨o, List.mem_range.mp ho, rfl⟩)

/-- `_insert_cidr` is idempotent on the trie state. -/
theorem insertCidr_idem (t : Node) (net : List Nat) (plen : Nat) (bc : List Nat) :
    insertCidr (insertCidr t net plen bc) net plen bc = insertCidr t net plen bc := by
  by_cases hp0 : plen = 0
  · subst hp0
    rw [insertCidr_zero, insertCidr_zero]
    simp
  · by_cases hrem : plen % 8 = 0
    · rw [insertCidr_rem0 t net plen bc hp0 hrem,
        insertCidr_rem0 _ net plen bc hp0 hrem]
      exact insertWalk_idem _ (fun m => markAsEndNode_idem m net bc) _ t
    · rw [insertCidr_remPos t net plen bc hp0 hrem,
        insertCidr_remPos _ net plen bc hp0 hrem]
      exact insertWalk_idem _ (fun m => expandMark_idem m _ _ net bc) _ t

/-- **C6 counterexample.** Removing a never-inserted prefix can change the
trie: with only `172.16.0.0/12` inserted, removing `172.16.0.0/16` (never
inserted) unmarks the expansion terminal at `[172, 16]`, so `172.16.0.1`
stops matching. -/
theorem remove_absent_counterexample :
    checkBytes (insertCidr emptyNode [172, 16, 0, 0] 12 [172, 31, 255, 255])
      [172, 16, 0, 1] = true
    ∧ checkBytes (removeCidr (insertCidr emptyNode [172, 16, 0, 0] 12
        [172, 31, 255, 255]) [172, 16, 0, 0] 16) [172, 16, 0, 1] = false := by
  refine ⟨by decide, by decide⟩

/-- **C6 amended.** Inserting the same prefix twice is observationally
equivalent (indeed state-equal) to inserting it once; and removing an
absent prefix is a no-op provided the prefix is full-byte of nonzero length
and its byte path is not a stored path of the trie (ruling out the `/0`
wipe and removal paths that land on terminals of other stored prefixes,
such as partial-byte expansion siblings). -/
theorem insert_idem_and_remove_absent
    (t : Node) (net : List Nat) (plen : Nat) (bc : List Nat) (a : List Nat)
    (u : Node) (S : List Nat → Prop) (q : Pfx) :
    (checkBytes (insertCidr (insertCidr t net plen bc) net plen bc) a
      = checkBytes (insertCidr t net plen bc) a)
    ∧ (Represents u S → q.plen % 8 = 0 → q.plen ≠ 0 →
        q.plen ≤ 8 * q.net.length → ¬ S (pathOf q) →
        removeCidr u q.net q.plen = u) := by
  constructor
  · rw [insertCidr_idem]
  · intro hrep hfull hp0 hval habs
    exact remove_absent_noop q hrep hfull hp0 hval habs

/-- Witness for the amended C6: inserting `10.0.0.0/8` twice, and removing
the absent `10.9.0.0/16`. -/
theorem insert_idem_and_remove_absent_witness :
    (checkBytes (insertCidr (insertCidr emptyNode [10, 0, 0, 0] 8
        [10, 255, 255, 255]) [10, 0, 0, 0] 8 [10, 255, 255, 255]) [10, 1, 2, 3]
      = checkBytes (insertCidr emptyNode [10, 0, 0, 0] 8 [10, 255, 255, 255])
        [10, 1, 2, 3])
    ∧ removeCidr (insertCidr emptyNode [10, 0, 0, 0] 8 [10, 255, 255, 255])
        [10, 9, 0, 0] 16
      = insertCidr emptyNode [10, 0, 0, 0] 8 [10, 255, 255, 255] :=
  ⟨(insert_idem_and_remove_absent emptyNode [10, 0, 0, 0] 8 [10, 255, 255, 255]
      [10, 1, 2, 3] (insertCidr emptyNode [10, 0, 0, 0] 8 [10, 255, 255, 255])
      (fun s => False ∨ s = ([10, 0, 0, 0] : List Nat).take (8 / 8))
      ⟨[10, 9, 0, 0], 16⟩).1,
   (insert_idem_and_remove_absent emptyNode [10, 0, 0, 0] 8 [10, 255, 255, 255]
      [10, 1, 2, 3] (insertCidr emptyNode [10, 0, 0, 0] 8 [10, 255, 255, 255])
      (fun s => False ∨ s = ([10, 0, 0, 0] : List Nat).take (8 / 8))
      ⟨[10, 9, 0, 0], 16⟩).2
     (represents_insertCidr emptyNode (fun _ => False) [10, 0, 0, 0] 8
       [10, 255, 255, 255] represents_emptyNode (by decide))
     (by decide) (by decide) (by decide) (by decide)⟩

/-! ## Cache invalidation across mutation, and failed mutations -/

/-- **C4.** The CIDARTHA5 mutators never invalidate the lookup cache: a
query answered (and memoized) before an insert is replayed stale after it,
disagreeing with an uncached walk of the mutated trie.  The same trace on
CIDARTHA4, whose `insert` calls `check.cache_clear()`, answers from the
post-mutation trie. -/
theorem cache_stale_after_mutation :
    ((check5 (insert5 (check5 Engine5.init [1, 2, 3, 4]).2 ⟨[1, 2, 3, 4], 32⟩)
        [1, 2, 3, 4]).1 = false
      ∧ checkBytes (insert5 (check5 Engine5.init [1, 2, 3, 4]).2
          ⟨[1, 2, 3, 4], 32⟩).root [1, 2, 3, 4] = true)
    ∧ ((check4 (insert4 (check4 Engine4.init [1, 2, 3, 4]).2 ⟨[1, 2, 3, 4], 32⟩)
        [1, 2, 3, 4]).1 = true
      ∧ checkBytes (insert4 (check4 Engine4.init [1, 2, 3, 4]).2
          ⟨[1, 2, 3, 4], 32⟩).root [1, 2, 3, 4] = true) := by
  refine ⟨⟨by decide, by decide⟩, by decide, by decide⟩

/-- `CIDARTHA4.insert` on raw text: the parse (`_cached_ip_network`,
external) is the first statement of the guarded block; its result is `none`
when the CIDR string is rejected, in which case the `ValueError` propagates
(`false` in the first component) before any structural change or cache
clear. -/
def insertOp4 (e : Engine4) (parsed : Option Pfx) : Bool × Engine4 :=
  match parsed with
  | none => (false, e)
  | some p => (true, insert4 e p)

/-- `CIDARTHA4.remove` on raw text: parse first, raise on rejection with the
state untouched. -/
def removeOp4 (e : Engine4) (parsed : Option Pfx) : Bool × Engine4 :=
  match parsed with
  | none => (false, e)
  | some p => (true, remove4 e p)

/-- **C9.** A mutation handed a CIDR string the parser rejects signals the
invalid-prefix error and returns the engine — trie and caches — exactly as
it was: no half-mutated state is reachable because parsing precedes every
structural change. -/
theorem failed_mutation_keeps_state (e : Engine4) :
    insertOp4 e none = (false, e) ∧ removeOp4 e none = (false, e) :=
  ⟨rfl, rfl⟩

end CIDARTHA
